import Mathlib

namespace GooseMemory

/-- JS-style left-to-right split of a character list on a single separator
character, mirroring the behaviour of JavaScript String.prototype.split. -/
def splitChar (a : Char) : List Char → List (List Char)
  | [] => [[]]
  | c :: rest =>
    if c = a then [] :: splitChar a rest
    else
      match splitChar a rest with
      | [] => [[c]]
      | h :: t => (c :: h) :: t

/-- JS-style left-to-right non-overlapping split on the two-character
separator consisting of two newline characters. -/
def splitNN : List Char → List (List Char)
  | [] => [[]]
  | [c] => [[c]]
  | c :: d :: rest =>
    if c = '\n' ∧ d = '\n' then [] :: splitNN rest
    else
      match splitNN (d :: rest) with
      | [] => [[c]]
      | h :: t => (c :: h) :: t

/-- Join a list of character lists with a separator, mirroring
JavaScript Array.prototype.join. -/
def joinSep (sep : List Char) : List (List Char) → List Char
  | [] => []
  | [x] => x
  | x :: y :: t => x ++ sep ++ joinSep sep (y :: t)

/-- The double-newline entry delimiter used by the memory encoding. -/
def nnSep : List Char := ['\n', '\n']

theorem splitChar_ne_nil (a : Char) (l : List Char) : splitChar a l ≠ [] := by
  cases l with
  | nil => simp [splitChar]
  | cons c rest =>
    simp only [splitChar]
    split
    · simp
    · split <;> simp

theorem splitNN_ne_nil (l : List Char) : splitNN l ≠ [] := by
  match l with
  | [] => simp [splitNN]
  | [c] => simp [splitNN]
  | c :: d :: rest =>
    simp only [splitNN]
    split
    · simp
    · split <;> simp

theorem joinSep_splitChar (a : Char) (l : List Char) :
    joinSep [a] (splitChar a l) = l := by
  induction l with
  | nil => rfl
  | cons c rest ih =>
    simp only [splitChar]
    by_cases hc : c = a
    · simp only [hc, if_pos rfl]
      obtain ⟨h, t, hht⟩ : ∃ h t, splitChar a rest = h :: t := by
        cases hs : splitChar a rest with
        | nil => exact absurd hs (splitChar_ne_nil a rest)
        | cons h t => exact ⟨h, t, rfl⟩
      rw [hht] at ih ⊢
      simpa [joinSep] using ih
    · simp only [if_neg hc]
      obtain ⟨h, t, hht⟩ : ∃ h t, splitChar a rest = h :: t := by
        cases hs : splitChar a rest with
        | nil => exact absurd hs (splitChar_ne_nil a rest)
        | cons h t => exact ⟨h, t, rfl⟩
      rw [hht] at ih ⊢
      cases t with
      | nil => simpa [joinSep] using ih
      | cons y t' =>
        simp only [joinSep] at ih ⊢
        simp [← ih]

theorem joinSep_splitNN (l : List Char) : joinSep nnSep (splitNN l) = l := by
  induction l using splitNN.induct with
  | case1 => rfl
  | case2 c => rfl
  | case3 c d rest hnn ih =>
    obtain ⟨rfl, rfl⟩ := hnn
    simp only [splitNN, if_pos (⟨rfl, rfl⟩ : '\n' = '\n' ∧ '\n' = '\n')]
    obtain ⟨h, t, hht⟩ : ∃ h t, splitNN rest = h :: t := by
      cases hs : splitNN rest with
      | nil => exact absurd hs (splitNN_ne_nil rest)
      | cons h t => exact ⟨h, t, rfl⟩
    rw [hht] at ih ⊢
    simpa [joinSep, nnSep] using ih
  | case4 c d rest hnn hs ih =>
    exact absurd hs (splitNN_ne_nil _)
  | case5 c d rest hnn h t hht ih =>
    simp only [splitNN, if_neg hnn, hht]
    rw [hht] at ih
    cases t with
    | nil => simp only [joinSep] at ih ⊢; rw [ih]
    | cons y t' =>
      simp only [joinSep] at ih ⊢
      simp [← ih]

/-- Whether a character list contains two consecutive newline characters,
i.e. an occurrence of the entry delimiter. -/
def hasNN : List Char → Bool
  | [] => false
  | [_] => false
  | c :: d :: rest => (c == '\n' && d == '\n') || hasNN (d :: rest)

/-- JS-style substring scan: whether the pattern occurs anywhere in the
list, mirroring JavaScript String.prototype.includes. -/
def listContains (pat : List Char) : List Char → Bool
  | [] => pat.isEmpty
  | c :: rest => pat.isPrefixOf (c :: rest) || listContains pat rest

theorem beq_comm_char (x y : Char) : (x == y) = (y == x) := by
  rcases eq_or_ne x y with rfl | hne
  · rfl
  · simp [beq_eq_false_iff_ne, hne, hne.symm]

theorem listContains_nnSep_eq_hasNN (l : List Char) :
    listContains nnSep l = hasNN l := by
  match l with
  | [] => rfl
  | [c] =>
    simp [listContains, List.isPrefixOf, nnSep, hasNN]
  | c :: d :: rest =>
    have ih := listContains_nnSep_eq_hasNN (d :: rest)
    have hpre : nnSep.isPrefixOf (c :: d :: rest) = (c == '\n' && d == '\n') := by
      simp only [nnSep, List.isPrefixOf, List.isPrefixOf_nil_left, Bool.and_true]
      rw [beq_comm_char '\n' c, beq_comm_char '\n' d]
    calc listContains nnSep (c :: d :: rest)
        = (nnSep.isPrefixOf (c :: d :: rest) || listContains nnSep (d :: rest)) := by
          simp [listContains]
      _ = ((c == '\n' && d == '\n') || hasNN (d :: rest)) := by rw [hpre, ih]
      _ = hasNN (c :: d :: rest) := by simp [hasNN]

theorem hasNN_of_mem_nl : ∀ l : List Char, hasNN l = true → '\n' ∈ l := by
  intro l
  match l with
  | [] => simp [hasNN]
  | [c] => simp [hasNN]
  | c :: d :: rest =>
    intro h
    simp only [hasNN, Bool.or_eq_true, Bool.and_eq_true, beq_iff_eq] at h
    rcases h with ⟨rfl, _⟩ | h
    · simp
    · have := hasNN_of_mem_nl (d :: rest) h
      simp [List.mem_cons] at this ⊢
      tauto

theorem hasNN_eq_false_of_not_mem {l : List Char} (h : '\n' ∉ l) :
    hasNN l = false := by
  cases hl : hasNN l with
  | false => rfl
  | true => exact absurd (hasNN_of_mem_nl l hl) h

/-- If the trailing part cannot start a delimiter and a newline never occurs
in the front part, prepending the front part introduces no delimiter. -/
theorem hasNN_append_no_nl (x rest : List Char) (hx : '\n' ∉ x)
    (hr : hasNN ('\n' :: rest) = false) : hasNN (x ++ '\n' :: rest) = false := by
  induction x with
  | nil => simpa using hr
  | cons c x' ih =>
    have hc : c ≠ '\n' := by intro h; exact hx (by simp [h])
    have hx' : '\n' ∉ x' := fun h => hx (by simp [h])
    cases x' with
    | nil =>
      simp only [List.nil_append, List.cons_append] at ih ⊢
      simp only [hasNN, List.nil_append]
      have : (c == '\n') = false := by simp [hc]
      simp [this, ih hx']
    | cons c' x'' =>
      simp only [List.cons_append] at ih ⊢
      simp only [hasNN]
      have : (c == '\n') = false := by simp [hc]
      simp only [this, Bool.false_and, Bool.false_or]
      exact ih hx'

/-- If a character list has no delimiter occurrence, the JS split on the
delimiter returns the whole list as the only segment. -/
theorem splitNN_eq_self (l : List Char) (h : hasNN l = false) :
    splitNN l = [l] := by
  induction l using splitNN.induct with
  | case1 => rfl
  | case2 c => rfl
  | case3 c d rest hnn ih =>
    obtain ⟨rfl, rfl⟩ := hnn
    simp [hasNN] at h
  | case4 c d rest hnn hs ih =>
    exact absurd hs (splitNN_ne_nil _)
  | case5 c d rest hnn hd t hht ih =>
    have h' : hasNN (d :: rest) = false := by
      simp only [hasNN, Bool.or_eq_false_iff] at h
      exact h.2
    have := ih h'
    rw [hht] at this
    obtain ⟨rfl, rfl⟩ : hd = d :: rest ∧ t = [] := by
      cases this; exact ⟨rfl, rfl⟩
    simp [splitNN, if_neg hnn, hht]

/-- Boundary lemma: splitting a block followed by an explicit delimiter and a
remainder yields the block as the first segment, provided the block contains
no delimiter and does not end in a newline. -/
theorem splitNN_append_sep (p r : List Char) (hnn : hasNN p = false)
    (hlast : p.getLast? ≠ some '\n') :
    splitNN (p ++ '\n' :: '\n' :: r) = p :: splitNN r := by
  induction p with
  | nil =>
    simp [splitNN]
  | cons c p' ih =>
    cases p' with
    | nil =>
      have hc : c ≠ '\n' := by
        intro h; exact hlast (by simp [h])
      simp only [List.cons_append, List.nil_append]
      rw [show splitNN (c :: '\n' :: '\n' :: r) =
          match splitNN ('\n' :: '\n' :: r) with
          | [] => [[c]]
          | h :: t => (c :: h) :: t from by
        simp [splitNN, hc]]
      rw [show splitNN ('\n' :: '\n' :: r) = [] :: splitNN r from by simp [splitNN]]
    | cons c' p'' =>
      have hnn' : hasNN (c' :: p'') = false := by
        simp only [hasNN, Bool.or_eq_false_iff] at hnn
        exact hnn.2
      have hne : ¬ (c = '\n' ∧ c' = '\n') := by
        intro ⟨h1, h2⟩
        simp [hasNN, h1, h2] at hnn
      have hlast' : (c' :: p'').getLast? ≠ some '\n' := by
        simpa [List.getLast?_cons_cons] using hlast
      have := ih hnn' hlast'
      simp only [List.cons_append]
      rw [show splitNN (c :: c' :: (p'' ++ '\n' :: '\n' :: r)) =
          match splitNN (c' :: (p'' ++ '\n' :: '\n' :: r)) with
          | [] => [[c]]
          | h :: t => (c :: h) :: t from by
        simp [splitNN, hne]]
      simp only [List.cons_append] at this
      rw [this]

/-- Concatenation of delimiter-terminated blocks: each block is followed by
the double-newline entry delimiter. -/
def chunks (es : List (List Char)) : List Char :=
  (es.map (fun e => e ++ nnSep)).flatten

/-- A block is clean when it contains no entry delimiter and does not end in
a newline, so that appending the delimiter after it is unambiguous. -/
def CleanB (e : List Char) : Prop :=
  hasNN e = false ∧ e.getLast? ≠ some '\n'

instance (e : List Char) : Decidable (CleanB e) := by
  unfold CleanB; infer_instance

theorem chunks_nil : chunks [] = [] := rfl

theorem chunks_cons (e : List Char) (es : List (List Char)) :
    chunks (e :: es) = e ++ '\n' :: '\n' :: chunks es := by
  simp [chunks, nnSep]

theorem chunks_append (es fs : List (List Char)) :
    chunks (es ++ fs) = chunks es ++ chunks fs := by
  simp [chunks]

/-- Splitting a concatenation of clean delimiter-terminated blocks recovers
exactly the blocks, plus the final empty segment after the last delimiter. -/
theorem splitNN_chunks (es : List (List Char)) (hcl : ∀ e ∈ es, CleanB e) :
    splitNN (chunks es) = es ++ [[]] := by
  induction es with
  | nil => rfl
  | cons e es' ih =>
    rw [chunks_cons]
    have hce := hcl e (by simp)
    rw [splitNN_append_sep e (chunks es') hce.1 hce.2]
    rw [ih (fun e' he' => hcl e' (by simp [he']))]
    rfl

/-- Joining segments that end in a final empty segment reproduces the
delimiter-terminated concatenation of the other segments. -/
theorem joinSep_append_nil (es : List (List Char)) :
    joinSep nnSep (es ++ [[]]) = chunks es := by
  induction es with
  | nil => rfl
  | cons e es' ih =>
    cases es' with
    | nil => simp [joinSep, chunks, nnSep]
    | cons f fs =>
      rw [chunks_cons]
      rw [show ((e :: f :: fs) ++ [[]] : List (List Char)) = e :: f :: (fs ++ [[]]) from by
        simp]
      rw [show joinSep nnSep (e :: f :: (fs ++ [[]]))
          = e ++ nnSep ++ joinSep nnSep (f :: (fs ++ [[]])) from by simp [joinSep]]
      rw [show (f :: (fs ++ [[]]) : List (List Char)) = (f :: fs) ++ [[]] from by simp]
      rw [ih]
      simp [nnSep]

theorem splitChar_not_mem (a : Char) (l : List Char) :
    ∀ seg ∈ splitChar a l, a ∉ seg := by
  induction l with
  | nil =>
    intro seg hseg
    simp [splitChar] at hseg
    simp [hseg]
  | cons c rest ih =>
    intro seg hseg
    simp only [splitChar] at hseg
    by_cases hc : c = a
    · rw [if_pos hc] at hseg
      rcases List.mem_cons.mp hseg with rfl | h
      · simp
      · exact ih seg h
    · rw [if_neg hc] at hseg
      cases hs : splitChar a rest with
      | nil => exact absurd hs (splitChar_ne_nil a rest)
      | cons h t =>
        rw [hs] at hseg
        rcases List.mem_cons.mp hseg with rfl | hmem
        · intro hmem2
          rcases List.mem_cons.mp hmem2 with rfl | hmem3
          · exact hc rfl
          · exact ih h (by simp [hs]) hmem3
        · exact ih seg (by rw [hs]; exact List.mem_cons_of_mem _ hmem)

/-- Splitting on a character distributes over a block free of that character
followed by an explicit separator occurrence. -/
theorem splitChar_append_cons (a : Char) (x r : List Char) (hx : a ∉ x) :
    splitChar a (x ++ a :: r) = x :: splitChar a r := by
  induction x with
  | nil => simp [splitChar]
  | cons c x' ih =>
    have hc : c ≠ a := by intro h; exact hx (by simp [h])
    have hx' : a ∉ x' := fun h => hx (by simp [h])
    simp only [List.cons_append, splitChar, if_neg hc]
    simp only [List.append_eq]
    rw [ih hx']

theorem splitChar_nil (a : Char) : splitChar a [] = [[]] := rfl

/-- The first segment of a character split is a prefix of the original list. -/
theorem splitChar_head_prefix_aux (a : Char) (l : List Char) :
    ∀ h t, splitChar a l = h :: t → h <+: l := by
  induction l with
  | nil =>
    intro h t hht
    simp [splitChar] at hht
    simp [hht.1]
  | cons c rest ih =>
    intro h t hht
    simp only [splitChar] at hht
    by_cases hc : c = a
    · rw [if_pos hc] at hht
      cases hht
      exact List.nil_prefix
    · rw [if_neg hc] at hht
      cases hs : splitChar a rest with
      | nil => exact absurd hs (splitChar_ne_nil a rest)
      | cons hh tt =>
        rw [hs] at hht
        cases hht
        obtain ⟨w, rfl⟩ := ih _ _ hs
        exact ⟨w, rfl⟩

/-- JS whitespace test for the characters relevant to String.prototype.trim. -/
def isWS (c : Char) : Bool :=
  c == ' ' || c == '\t' || c == '\n' || c == '\r' || c == '\x0B' || c == '\x0C'

/-- JS-style trim of a character list: drop whitespace from both ends. -/
def trimCh (l : List Char) : List Char :=
  ((l.dropWhile isWS).reverse.dropWhile isWS).reverse

theorem trimCh_eq_nil_iff (l : List Char) :
    trimCh l = [] ↔ ∀ c ∈ l, isWS c = true := by
  unfold trimCh
  rw [List.reverse_eq_nil_iff, List.dropWhile_eq_nil_iff]
  constructor
  · intro h c hc
    rcases List.mem_append.mp (by rw [List.takeWhile_append_dropWhile]; exact hc :
        c ∈ l.takeWhile isWS ++ l.dropWhile isWS) with h1 | h2
    · exact List.mem_takeWhile_imp h1
    · exact h c (by simpa using h2)
  · intro h c hc
    have : c ∈ l.dropWhile isWS := by simpa using hc
    exact h c (List.dropWhile_sublist isWS |>.mem this)

/-! ## String-level primitives mirroring the JavaScript code -/

/-- content.split of a string on the two-newline delimiter,
as in content.split applied to the blank-line separator in the source. -/
def jsSplitEntries (s : String) : List String :=
  (splitNN s.data).map String.mk

/-- entry.split on a single newline: the lines of an entry. -/
def jsLines (s : String) : List String :=
  (splitChar '\n' s.data).map String.mk

/-- tag string split on a single space. -/
def jsWords (s : String) : List String :=
  (splitChar ' ' s.data).map String.mk

/-- Array.prototype.join with a single-character separator. -/
def joinStr (a : Char) (xs : List String) : String :=
  String.mk (joinSep [a] (xs.map String.data))

/-- Array.prototype.join with the two-newline delimiter. -/
def joinEntriesStr (xs : List String) : String :=
  String.mk (joinSep nnSep (xs.map String.data))

/-- String.prototype.trim. -/
def jsTrim (s : String) : String := String.mk (trimCh s.data)

/-- Whether a string is blank, i.e. trims to the empty string; this is the
truthiness test the source applies to entry.trim(). -/
def isBlank (s : String) : Bool := (trimCh s.data).isEmpty

/-- String.prototype.includes: unanchored case-sensitive substring test. -/
def containsSub (s sub : String) : Bool := listContains sub.data s.data

/-- firstLine.startsWith applied to the hash-space tag marker. -/
def startsHashSpace (s : String) : Bool := ("# ".data).isPrefixOf s.data

/-- firstLine.substring(2): drop the two marker characters. -/
def strDrop2 (s : String) : String := String.mk (s.data.drop 2)

/-! ## Grouped view (the JS object mapping group keys to line arrays) -/

/-- Association list from group key to lines, in JS object insertion order. -/
abbrev Grouped := List (String × List String)

/-- Read a key from the grouped mapping. -/
def getGroup (m : Grouped) (k : String) : Option (List String) :=
  (m.find? (fun p => p.1 == k)).map (fun p => p.2)

/-- JS object assignment: overwrite the value in place if the key exists,
otherwise append the new key at the end. -/
def setGroup (m : Grouped) (k : String) (v : List String) : Grouped :=
  if m.any (fun p => p.1 == k) then
    m.map (fun p => if p.1 == k then (p.1, v) else p)
  else m ++ [(k, v)]

/-- JS push onto a possibly missing array entry: create the key with the
values if absent, otherwise append the values to the existing array. -/
def pushGroup (m : Grouped) (k : String) (v : List String) : Grouped :=
  if m.any (fun p => p.1 == k) then
    m.map (fun p => if p.1 == k then (p.1, p.2 ++ v) else p)
  else m ++ [(k, v)]

/-- Keep only the non-blank lines, as the source's filter on line.trim(). -/
def filterNonBlank (lines : List String) : List String :=
  lines.filter (fun l => !(isBlank l))

/-- Process one raw entry of a category body into the grouped mapping,
mirroring the loop body of retrieveCategory in the memory server. -/
def addEntry (m : Grouped) (entry : String) : Grouped :=
  if isBlank entry then m
  else
    match jsLines entry with
    | [] => m
    | firstLine :: restLines =>
      if startsHashSpace firstLine then
        let tags := jsWords (jsTrim (strDrop2 firstLine))
        let tagKey := joinStr ' ' tags
        setGroup m tagKey (filterNonBlank restLines)
      else
        pushGroup m "untagged" (filterNonBlank (firstLine :: restLines))

/-- Decode a raw category body into its grouped view, mirroring
retrieveCategory's split-and-group loop. -/
def decodeBody (content : String) : Grouped :=
  (jsSplitEntries content).foldl addEntry []

/-- Flatten a grouped view into all lines across all groups, in group order,
as Object.values followed by flat in the wildcard retrieval path. -/
def flattenVals (m : Grouped) : List String :=
  (m.map (fun p => p.2)).flatten

/-! ## The backing store: one text file per category per scope -/

/-- The file system model: an association list from (is_global, filename)
to the file body, in creation order. -/
abbrev MemFS := List ((Bool × String) × String)

/-- Look up a file body in a scope. -/
def getFile (fs : MemFS) (g : Bool) (name : String) : Option String :=
  (fs.find? (fun p => p.1.1 == g && p.1.2 == name)).map (fun p => p.2)

/-- Write a file body: overwrite in place if present, else create. -/
def setFile (fs : MemFS) (g : Bool) (name : String) (body : String) : MemFS :=
  if fs.any (fun p => p.1.1 == g && p.1.2 == name) then
    fs.map (fun p => if p.1.1 == g && p.1.2 == name then (p.1, body) else p)
  else fs ++ [((g, name), body)]

/-- fs.appendFile: append to the file, creating it when absent. -/
def appendFile (fs : MemFS) (g : Bool) (name : String) (content : String) : MemFS :=
  setFile fs g name (((getFile fs g name).getD "") ++ content)

/-- fs.remove of a single file; removing a missing file changes nothing. -/
def removeFile (fs : MemFS) (g : Bool) (name : String) : MemFS :=
  fs.filter (fun p => !(p.1.1 == g && p.1.2 == name))

/-- fs.readdir of a scope's directory: the file names of that scope. -/
def listDir (fs : MemFS) (g : Bool) : List String :=
  fs.filterMap (fun p => if p.1.1 == g then some p.1.2 else none)

/-- fs.emptyDir of a scope's directory: delete every file of that scope. -/
def emptyDir (fs : MemFS) (g : Bool) : MemFS :=
  fs.filter (fun p => !(p.1.1 == g))

/-! ## The four memory operations (state-level effect of index.ts handlers) -/

/-- The encoded content appended by remember_memory: an optional tag header
line followed by the data and a blank-line terminator. -/
def encodeEntry (data : String) (tags : List String) : String :=
  (if tags.length > 0 then "# " ++ joinStr ' ' tags ++ "\n" else "") ++ data ++ "\n\n"

/-- remember_memory: append one encoded entry to the category's file. -/
def remember (fs : MemFS) (category data : String) (tags : List String)
    (g : Bool) : MemFS :=
  appendFile fs g (category ++ ".txt") (encodeEntry data tags)

/-- retrieveCategory: decode the category file's grouped view; a missing
file gives the empty mapping. -/
def retrieveCategory (fs : MemFS) (category : String) (g : Bool) : Grouped :=
  match getFile fs g (category ++ ".txt") with
  | none => []
  | some content => decodeBody content

/-- file.replace applied to the extension: remove the first occurrence of
the pattern, as JavaScript String.prototype.replace with a string pattern. -/
def removeFirstOcc (pat : List Char) : List Char → List Char
  | [] => []
  | c :: rest =>
    if pat.isPrefixOf (c :: rest) then rest.drop (pat.length - 1)
    else c :: removeFirstOcc pat rest

/-- The category name the wildcard loop derives from a file name. -/
def stripTxt (file : String) : String :=
  String.mk (removeFirstOcc (".txt".data) file.data)

/-- Loop body of the wildcard branch of retrieve_memories: skip files
without the text extension, decode the derived category, record the
flattened view when non-empty. -/
def wildcardStep (fs : MemFS) (g : Bool) (memories : Grouped)
    (file : String) : Grouped :=
  if (".txt".data).isSuffixOf file.data then
    let categoryName := stripTxt file
    let categoryMemories := retrieveCategory fs categoryName g
    if categoryMemories.length > 0 then
      setGroup memories categoryName (flattenVals categoryMemories)
    else memories
  else memories

/-- The wildcard branch of retrieve_memories: walk the scope's directory,
decode each category, and collect the flattened non-empty views. -/
def retrieveAll (fs : MemFS) (g : Bool) : Grouped :=
  (listDir fs g).foldl (wildcardStep fs g) []

/-- retrieve_memories: wildcard aggregation or single-category decoding. -/
def retrieveMemories (fs : MemFS) (category : String) (g : Bool) : Grouped :=
  if category = "*" then retrieveAll fs g
  else retrieveCategory fs category g

/-- remove_memory_category: clear the whole scope for the wildcard, else
delete the category's file; a missing file is a silent no-op. -/
def removeMemoryCategory (fs : MemFS) (category : String) (g : Bool) : MemFS :=
  if category = "*" then emptyDir fs g
  else removeFile fs g (category ++ ".txt")

/-- The rewritten body of remove_specific_memory: split on the delimiter,
drop the segments containing the searched content, rejoin. -/
def removeEntryBody (memoryContent content : String) : String :=
  joinEntriesStr ((jsSplitEntries content).filter
    (fun memory => !(containsSub memory memoryContent)))

/-- remove_specific_memory: rewrite the category file with the filtered
entries; a missing file is a silent no-op. -/
def removeSpecificMemory (fs : MemFS) (category memoryContent : String)
    (g : Bool) : MemFS :=
  match getFile fs g (category ++ ".txt") with
  | none => fs
  | some content =>
      setFile fs g (category ++ ".txt") (removeEntryBody memoryContent content)

/-! ## Lemmas about the grouped mapping -/

theorem getGroup_nil (k : String) : getGroup [] k = none := rfl

theorem getGroup_mapUpdate_self (m : Grouped) (k : String)
    (f : String × List String → List String) :
    getGroup (m.map (fun p => if p.1 == k then (p.1, f p) else p)) k
      = (m.find? (fun p => p.1 == k)).map f := by
  induction m with
  | nil => rfl
  | cons p m' ih =>
    by_cases hp : p.1 == k
    · simp [getGroup, List.find?, hp]
    · simp only [List.map_cons, if_neg hp]
      simp only [getGroup, List.find?, hp] at ih ⊢
      exact ih

theorem getGroup_mapUpdate_ne (m : Grouped) (k k' : String)
    (f : String × List String → List String) (h : k' ≠ k) :
    getGroup (m.map (fun p => if p.1 == k then (p.1, f p) else p)) k'
      = getGroup m k' := by
  induction m with
  | nil => rfl
  | cons p m' ih =>
    by_cases hp : p.1 == k
    · have hp1 : p.1 = k := by simpa using hp
      have hp' : (p.1 == k') = false := by
        simp only [hp1]
        exact beq_eq_false_iff_ne.mpr (fun hh => h hh.symm)
      simp only [List.map_cons, if_pos hp]
      simp only [getGroup, List.find?, hp'] at ih ⊢
      exact ih
    · by_cases hp' : p.1 == k'
      · simp [getGroup, List.find?, hp, hp']
      · simp only [List.map_cons, if_neg hp]
        simp only [getGroup, List.find?, hp'] at ih ⊢
        exact ih

theorem getGroup_append_single_self (m : Grouped) (k : String) (v : List String)
    (h : m.find? (fun p => p.1 == k) = none) :
    getGroup (m ++ [(k, v)]) k = some v := by
  induction m with
  | nil => simp [getGroup, List.find?]
  | cons p m' ih =>
    simp only [List.find?] at h
    cases hp : (p.1 == k) with
    | true => rw [hp] at h; cases h
    | false =>
      rw [hp] at h
      simp only [List.cons_append, getGroup, List.find?, hp] at ih ⊢
      exact ih h

theorem getGroup_append_single_ne (m : Grouped) (k k' : String) (v : List String)
    (h : k' ≠ k) : getGroup (m ++ [(k, v)]) k' = getGroup m k' := by
  induction m with
  | nil =>
    have hk : (k == k') = false := beq_eq_false_iff_ne.mpr (fun hh => h hh.symm)
    simp [getGroup, List.find?, hk]
  | cons p m' ih =>
    by_cases hp : p.1 == k'
    · simp [getGroup, List.find?, hp]
    · simp only [List.cons_append, getGroup, List.find?, hp] at ih ⊢
      exact ih

theorem any_iff_find?_isSome (m : Grouped) (k : String) :
    m.any (fun p => p.1 == k) = true ↔
      ∃ q, m.find? (fun p => p.1 == k) = some q := by
  constructor
  · intro hany
    cases hf : m.find? (fun p => p.1 == k) with
    | some q => exact ⟨q, rfl⟩
    | none =>
      rw [List.find?_eq_none] at hf
      rw [List.any_eq_true] at hany
      obtain ⟨x, hx, hpx⟩ := hany
      exact absurd hpx (hf x hx)
  · intro hq2
    obtain ⟨q, hq⟩ := hq2
    rw [List.any_eq_true]
    have hps := List.find?_some hq
    exact ⟨q, List.mem_of_find?_eq_some hq, hps⟩

theorem getGroup_setGroup_self (m : Grouped) (k : String) (v : List String) :
    getGroup (setGroup m k v) k = some v := by
  unfold setGroup
  by_cases hany : m.any (fun p => p.1 == k)
  · rw [if_pos hany, getGroup_mapUpdate_self m k (fun _ => v)]
    obtain ⟨q, hq⟩ := (any_iff_find?_isSome m k).mp hany
    rw [hq]; rfl
  · rw [if_neg hany]
    apply getGroup_append_single_self
    cases hf : m.find? (fun p => p.1 == k) with
    | none => rfl
    | some q => exact absurd ((any_iff_find?_isSome m k).mpr ⟨q, hf⟩) hany

theorem getGroup_setGroup_ne (m : Grouped) (k k' : String) (v : List String)
    (h : k' ≠ k) : getGroup (setGroup m k v) k' = getGroup m k' := by
  unfold setGroup
  by_cases hany : m.any (fun p => p.1 == k)
  · rw [if_pos hany]; exact getGroup_mapUpdate_ne m k k' (fun _ => v) h
  · rw [if_neg hany]; exact getGroup_append_single_ne m k k' v h

theorem getGroup_pushGroup_self (m : Grouped) (k : String) (v : List String) :
    getGroup (pushGroup m k v) k = some ((getGroup m k).getD [] ++ v) := by
  unfold pushGroup
  by_cases hany : m.any (fun p => p.1 == k)
  · rw [if_pos hany, getGroup_mapUpdate_self m k (fun p => p.2 ++ v)]
    obtain ⟨q, hq⟩ := (any_iff_find?_isSome m k).mp hany
    rw [hq]
    simp [getGroup, hq]
  · rw [if_neg hany]
    have hf : m.find? (fun p => p.1 == k) = none := by
      cases hf : m.find? (fun p => p.1 == k) with
      | none => rfl
      | some q => exact absurd ((any_iff_find?_isSome m k).mpr ⟨q, hf⟩) hany
    rw [getGroup_append_single_self m k v hf]
    simp [getGroup, hf]

theorem getGroup_pushGroup_ne (m : Grouped) (k k' : String) (v : List String)
    (h : k' ≠ k) : getGroup (pushGroup m k v) k' = getGroup m k' := by
  unfold pushGroup
  by_cases hany : m.any (fun p => p.1 == k)
  · rw [if_pos hany]; exact getGroup_mapUpdate_ne m k k' (fun p => p.2 ++ v) h
  · rw [if_neg hany]; exact getGroup_append_single_ne m k k' v h

/-! ## Lemmas about the file-system model -/

/-- Restriction of the store to one scope's files. -/
def filterScope (fs : MemFS) (g : Bool) : MemFS :=
  fs.filter (fun p => p.1.1 == g)

theorem getFile_filterScope (fs : MemFS) (g : Bool) (n : String) :
    getFile (filterScope fs g) g n = getFile fs g n := by
  induction fs with
  | nil => rfl
  | cons p fs' ih =>
    by_cases hg : p.1.1 == g
    · simp only [filterScope, List.filter_cons, hg, if_pos rfl]
      by_cases hn : p.1.2 == n
      · simp [getFile, List.find?, hg, hn]
      · simp only [getFile, List.find?, hg, hn, Bool.and_false] at ih ⊢
        simpa [filterScope] using ih
    · simp only [filterScope, List.filter_cons, hg]
      simp only [getFile, List.find?, hg, Bool.false_and] at ih ⊢
      simpa [filterScope] using ih

theorem listDir_filterScope (fs : MemFS) (g : Bool) :
    listDir (filterScope fs g) g = listDir fs g := by
  unfold listDir filterScope
  rw [List.filterMap_filter]
  congr 1
  funext x
  by_cases hx : x.1.1 == g <;> simp [hx]

theorem filter_scope_map_update (fs : MemFS) (g g' : Bool) (n b : String)
    (hg : g' ≠ g) :
    List.filter (fun p => p.1.1 == g')
        (fs.map (fun p => if p.1.1 == g && p.1.2 == n then (p.1, b) else p))
      = List.filter (fun p => p.1.1 == g') fs := by
  rw [List.filter_map]
  have hcomp : ((fun p : (Bool × String) × String => p.1.1 == g') ∘
      (fun p => if p.1.1 == g && p.1.2 == n then (p.1, b) else p))
      = (fun p => p.1.1 == g') := by
    funext x
    by_cases hm : x.1.1 == g && x.1.2 == n
    · simp [Function.comp, hm]
    · simp [Function.comp, hm]
  rw [hcomp]
  have hid : ∀ x ∈ List.filter (fun p => p.1.1 == g') fs,
      (if x.1.1 == g && x.1.2 == n then (x.1, b) else x) = x := by
    intro x hx
    have hx' : (x.1.1 == g') = true := (List.mem_filter.mp hx).2
    have hxg : x.1.1 = g' := by simpa using hx'
    have hfst : (x.1.1 == g) = false := by
      rw [hxg]; exact beq_eq_false_iff_ne.mpr hg
    have hfalse : (x.1.1 == g && x.1.2 == n) = false := by simp [hfst]
    rw [hfalse]
    simp
  rw [List.map_congr_left hid]
  simp

theorem filterScope_setFile_other (fs : MemFS) (g g' : Bool) (n : String)
    (b : String) (hg : g' ≠ g) :
    filterScope (setFile fs g n b) g' = filterScope fs g' := by
  unfold setFile filterScope
  by_cases hany : fs.any (fun p => p.1.1 == g && p.1.2 == n)
  · rw [if_pos hany]
    exact filter_scope_map_update fs g g' n b hg
  · rw [if_neg hany, List.filter_append]
    have h0 : List.filter (fun p => p.1.1 == g') [((g, n), b)] = [] := by
      simp [List.filter_cons, beq_eq_false_iff_ne.mpr (Ne.symm hg)]
    rw [h0, List.append_nil]

theorem filterScope_removeFile_other (fs : MemFS) (g g' : Bool) (n : String)
    (hg : g' ≠ g) :
    filterScope (removeFile fs g n) g' = filterScope fs g' := by
  unfold filterScope removeFile
  rw [List.filter_filter]
  apply List.filter_congr
  intro x hx
  by_cases h1 : x.1.1 == g'
  · have hxg : x.1.1 = g' := by simpa using h1
    have hfst : (x.1.1 == g) = false := by
      rw [hxg]; exact beq_eq_false_iff_ne.mpr hg
    simp [h1, hfst]
  · simp [(by simpa using h1 : (x.1.1 == g') = false)]

theorem filterScope_emptyDir_other (fs : MemFS) (g g' : Bool) (hg : g' ≠ g) :
    filterScope (emptyDir fs g) g' = filterScope fs g' := by
  unfold filterScope emptyDir
  rw [List.filter_filter]
  apply List.filter_congr
  intro x hx
  by_cases h1 : x.1.1 == g'
  · have hxg : x.1.1 = g' := by simpa using h1
    have hfst : (x.1.1 == g) = false := by
      rw [hxg]; exact beq_eq_false_iff_ne.mpr hg
    simp [h1, hfst]
  · simp [(by simpa using h1 : (x.1.1 == g') = false)]

theorem getFile_mapUpdate_self (fs : MemFS) (g : Bool) (n : String)
    (f : (Bool × String) × String → String) :
    getFile (fs.map (fun p => if p.1.1 == g && p.1.2 == n then (p.1, f p) else p)) g n
      = (fs.find? (fun p => p.1.1 == g && p.1.2 == n)).map f := by
  induction fs with
  | nil => rfl
  | cons p fs' ih =>
    by_cases hp : p.1.1 == g && p.1.2 == n
    · simp [getFile, List.find?, hp]
    · simp only [List.map_cons, if_neg hp]
      simp only [getFile, List.find?, hp] at ih ⊢
      exact ih

theorem fs_any_iff_find?_isSome (fs : MemFS) (g : Bool) (n : String) :
    fs.any (fun p => p.1.1 == g && p.1.2 == n) = true ↔
      ∃ q, fs.find? (fun p => p.1.1 == g && p.1.2 == n) = some q := by
  constructor
  · intro hany
    cases hf : fs.find? (fun p => p.1.1 == g && p.1.2 == n) with
    | some q => exact ⟨q, rfl⟩
    | none =>
      rw [List.find?_eq_none] at hf
      rw [List.any_eq_true] at hany
      obtain ⟨x, hx, hpx⟩ := hany
      exact absurd hpx (hf x hx)
  · intro hq2
    obtain ⟨q, hq⟩ := hq2
    rw [List.any_eq_true]
    have hps := List.find?_some hq
    exact ⟨q, List.mem_of_find?_eq_some hq, hps⟩

theorem getFile_append_single_self (fs : MemFS) (g : Bool) (n b : String)
    (h : fs.find? (fun p => p.1.1 == g && p.1.2 == n) = none) :
    getFile (fs ++ [((g, n), b)]) g n = some b := by
  induction fs with
  | nil => simp [getFile, List.find?]
  | cons p fs' ih =>
    simp only [List.find?] at h
    cases hp : (p.1.1 == g && p.1.2 == n) with
    | true => rw [hp] at h; cases h
    | false =>
      rw [hp] at h
      simp only [List.cons_append, getFile, List.find?, hp] at ih ⊢
      exact ih h

theorem getFile_setFile_self (fs : MemFS) (g : Bool) (n b : String) :
    getFile (setFile fs g n b) g n = some b := by
  unfold setFile
  by_cases hany : fs.any (fun p => p.1.1 == g && p.1.2 == n)
  · rw [if_pos hany, getFile_mapUpdate_self fs g n (fun _ => b)]
    obtain ⟨q, hq⟩ := (fs_any_iff_find?_isSome fs g n).mp hany
    rw [hq]; rfl
  · rw [if_neg hany]
    apply getFile_append_single_self
    cases hf : fs.find? (fun p => p.1.1 == g && p.1.2 == n) with
    | none => rfl
    | some q => exact absurd ((fs_any_iff_find?_isSome fs g n).mpr ⟨q, hf⟩) hany

theorem getFile_mapUpdate_other (fs : MemFS) (g g' : Bool) (n n' : String)
    (f : (Bool × String) × String → String) (h : ¬ (g' = g ∧ n' = n)) :
    getFile (fs.map (fun p => if p.1.1 == g && p.1.2 == n then (p.1, f p) else p)) g' n'
      = getFile fs g' n' := by
  induction fs with
  | nil => rfl
  | cons p fs' ih =>
    by_cases hp : p.1.1 == g && p.1.2 == n
    · have hk : p.1.1 = g ∧ p.1.2 = n := by
        have h2 := (Bool.and_eq_true _ _).mp hp
        exact ⟨by simpa using h2.1, by simpa using h2.2⟩
      have hp' : (p.1.1 == g' && p.1.2 == n') = false := by
        rcases Decidable.not_and_iff_or_not.mp h with hgg | hnn
        · have : (p.1.1 == g') = false := by
            rw [hk.1]; exact beq_eq_false_iff_ne.mpr (fun hh => hgg hh.symm)
          simp [this]
        · have : (p.1.2 == n') = false := by
            rw [hk.2]; exact beq_eq_false_iff_ne.mpr (fun hh => hnn hh.symm)
          simp [this]
      simp only [List.map_cons, if_pos hp]
      simp only [getFile, List.find?, hp'] at ih ⊢
      exact ih
    · by_cases hp' : p.1.1 == g' && p.1.2 == n'
      · simp [getFile, List.find?, hp, hp']
      · simp only [List.map_cons, if_neg hp]
        simp only [getFile, List.find?, hp'] at ih ⊢
        exact ih

theorem getFile_append_single_other (fs : MemFS) (g g' : Bool) (n n' b : String)
    (h : ¬ (g' = g ∧ n' = n)) :
    getFile (fs ++ [((g, n), b)]) g' n' = getFile fs g' n' := by
  induction fs with
  | nil =>
    have hp' : (g == g' && n == n') = false := by
      rcases Decidable.not_and_iff_or_not.mp h with hgg | hnn
      · have : (g == g') = false := beq_eq_false_iff_ne.mpr (fun hh => hgg hh.symm)
        simp [this]
      · have : (n == n') = false := beq_eq_false_iff_ne.mpr (fun hh => hnn hh.symm)
        simp [this]
    simp [getFile, List.find?, hp']
  | cons p fs' ih =>
    by_cases hp : p.1.1 == g' && p.1.2 == n'
    · simp [getFile, List.find?, hp]
    · simp only [List.cons_append, getFile, List.find?, hp] at ih ⊢
      exact ih

theorem getFile_setFile_other (fs : MemFS) (g g' : Bool) (n n' b : String)
    (h : ¬ (g' = g ∧ n' = n)) :
    getFile (setFile fs g n b) g' n' = getFile fs g' n' := by
  unfold setFile
  by_cases hany : fs.any (fun p => p.1.1 == g && p.1.2 == n)
  · rw [if_pos hany]; exact getFile_mapUpdate_other fs g g' n n' (fun _ => b) h
  · rw [if_neg hany]; exact getFile_append_single_other fs g g' n n' b h

theorem removeFile_eq_self_of_none (fs : MemFS) (g : Bool) (n : String)
    (h : getFile fs g n = none) : removeFile fs g n = fs := by
  unfold removeFile
  rw [List.filter_eq_self]
  intro p hp
  have hf : fs.find? (fun p => p.1.1 == g && p.1.2 == n) = none := by
    unfold getFile at h
    cases hf : fs.find? (fun p => p.1.1 == g && p.1.2 == n) with
    | none => rfl
    | some q => rw [hf] at h; cases h
  rw [List.find?_eq_none] at hf
  have := hf p hp
  simp only [Bool.not_eq_true] at this ⊢
  simp [this]

theorem getFile_removeFile_other (fs : MemFS) (g g' : Bool) (n n' : String)
    (h : ¬ (g' = g ∧ n' = n)) :
    getFile (removeFile fs g n) g' n' = getFile fs g' n' := by
  induction fs with
  | nil => rfl
  | cons p fs' ih =>
    by_cases hp : p.1.1 == g && p.1.2 == n
    · have hk : p.1.1 = g ∧ p.1.2 = n := by
        have h2 := (Bool.and_eq_true _ _).mp hp
        exact ⟨by simpa using h2.1, by simpa using h2.2⟩
      have hp' : (p.1.1 == g' && p.1.2 == n') = false := by
        rcases Decidable.not_and_iff_or_not.mp h with hgg | hnn
        · have : (p.1.1 == g') = false := by
            rw [hk.1]; exact beq_eq_false_iff_ne.mpr (fun hh => hgg hh.symm)
          simp [this]
        · have : (p.1.2 == n') = false := by
            rw [hk.2]; exact beq_eq_false_iff_ne.mpr (fun hh => hnn hh.symm)
          simp [this]
      simp only [removeFile, List.filter_cons, hp, Bool.not_true]
      simp only [removeFile] at ih
      simp only [getFile, List.find?, hp'] at ih ⊢
      simpa using ih
    · simp only [removeFile, List.filter_cons, hp, Bool.not_false]
      simp only [removeFile] at ih
      by_cases hp' : p.1.1 == g' && p.1.2 == n'
      · simp [getFile, List.find?, hp, hp']
      · simp only [getFile, List.find?, hp'] at ih ⊢
        simpa [hp'] using ih

theorem getFile_emptyDir_same (fs : MemFS) (g : Bool) (n : String) :
    getFile (emptyDir fs g) g n = none := by
  induction fs with
  | nil => rfl
  | cons p fs' ih =>
    by_cases hp : p.1.1 == g
    · simp only [emptyDir, List.filter_cons, hp, Bool.not_true]
      simpa [emptyDir] using ih
    · simp only [emptyDir, List.filter_cons, hp, Bool.not_false]
      simp only [getFile, List.find?]
      have : (p.1.1 == g && p.1.2 == n) = false := by
        simp [(by simpa using hp : (p.1.1 == g) = false)]
      rw [this]
      simpa [emptyDir, getFile] using ih

theorem getFile_emptyDir_other (fs : MemFS) (g g' : Bool) (n : String)
    (hg : g' ≠ g) :
    getFile (emptyDir fs g) g' n = getFile fs g' n := by
  induction fs with
  | nil => rfl
  | cons p fs' ih =>
    by_cases hp : p.1.1 == g
    · have hxg : p.1.1 = g := by simpa using hp
      have h1 : (p.1.1 == g') = false := by
        rw [hxg]; exact beq_eq_false_iff_ne.mpr (fun hh => hg hh.symm)
      simp only [emptyDir, List.filter_cons, hp, Bool.not_true]
      simp only [emptyDir] at ih
      simp only [getFile, List.find?, h1, Bool.false_and] at ih ⊢
      simpa using ih
    · simp only [emptyDir, List.filter_cons, hp, Bool.not_false]
      by_cases hp' : p.1.1 == g' && p.1.2 == n
      · simp [getFile, List.find?, hp']
      · simp only [emptyDir] at ih
        simp only [getFile, List.find?, hp'] at ih ⊢
        simpa [hp'] using ih

theorem mem_listDir_of_getFile (fs : MemFS) (g : Bool) (n b : String)
    (h : getFile fs g n = some b) : n ∈ listDir fs g := by
  unfold getFile at h
  cases hf : fs.find? (fun p => p.1.1 == g && p.1.2 == n) with
  | none => rw [hf] at h; cases h
  | some q =>
    have hq := List.find?_some hf
    have hmem := List.mem_of_find?_eq_some hf
    have h2 := (Bool.and_eq_true _ _).mp hq
    have hg1 : q.1.1 = g := by simpa using h2.1
    have hn1 : q.1.2 = n := by simpa using h2.2
    unfold listDir
    rw [List.mem_filterMap]
    exact ⟨q, hmem, by simp [hg1, hn1]⟩

/-! ## Clean entries, well-formed bodies, and the decode bridge -/

theorem joinSep_cons_decomp (sep : List Char) (y : List Char)
    (t : List (List Char)) : ∃ w, joinSep sep (y :: t) = y ++ w := by
  cases t with
  | nil => exact ⟨[], by simp [joinSep]⟩
  | cons z t' => exact ⟨sep ++ joinSep sep (z :: t'), by simp [joinSep]⟩

theorem join_lines_clean (parts : List (List Char)) (hne : parts ≠ [])
    (hp : ∀ p ∈ parts, p ≠ [] ∧ '\n' ∉ p) :
    CleanB (joinSep ['\n'] parts) ∧ (joinSep ['\n'] parts).head? ≠ some '\n' := by
  induction parts with
  | nil => exact absurd rfl hne
  | cons x t ih =>
    have hx := hp x (by simp)
    cases t with
    | nil =>
      rw [show joinSep ['\n'] [x] = x from by simp [joinSep]]
      refine ⟨⟨hasNN_eq_false_of_not_mem hx.2, ?hl⟩, ?hh⟩
      · intro hlast
        exact hx.2 (List.mem_of_mem_getLast? (by simp [hlast]))
      · intro hhead
        exact hx.2 (List.mem_of_mem_head? (by simp [hhead]))
    | cons y t' =>
      have hy : y ≠ [] ∧ '\n' ∉ y := hp y (by simp)
      obtain ⟨⟨hJnn, hJlast⟩, hJhead⟩ :=
        ih (by simp) (fun q hq => hp q (by simp [List.mem_cons] at hq ⊢; tauto))
      obtain ⟨w, hw⟩ := joinSep_cons_decomp ['\n'] y t'
      have hJne : joinSep ['\n'] (y :: t') ≠ [] := by
        rw [hw]
        intro hcon
        exact hy.1 (List.append_eq_nil.mp hcon).1
      obtain ⟨c0, r, hcr⟩ : ∃ c0 r, joinSep ['\n'] (y :: t') = c0 :: r := by
        cases hJ : joinSep ['\n'] (y :: t') with
        | nil => exact absurd hJ hJne
        | cons c0 r => exact ⟨c0, r, rfl⟩
      have hc0 : c0 ≠ '\n' := by
        intro hcon
        exact hJhead (by rw [hcr, hcon]; rfl)
      have hjoin : joinSep ['\n'] (x :: y :: t')
          = x ++ '\n' :: joinSep ['\n'] (y :: t') := by
        simp [joinSep]
      rw [hjoin]
      rw [hcr] at hJnn hJlast
      have hnn2 : hasNN ('\n' :: c0 :: r) = false := by
        simp [hasNN, beq_eq_false_iff_ne.mpr hc0, hJnn]
      rw [hcr]
      refine ⟨⟨hasNN_append_no_nl x _ hx.2 hnn2, ?hl2⟩, ?hh2⟩
      · rw [List.getLast?_append]
        have hgl : ('\n' :: c0 :: r).getLast? = (c0 :: r).getLast? :=
          List.getLast?_cons_cons
        rw [hgl]
        obtain ⟨cl, hcl⟩ : ∃ cl, (c0 :: r).getLast? = some cl := by
          cases hg : (c0 :: r).getLast? with
          | none => simp at hg
          | some cl => exact ⟨cl, rfl⟩
        rw [hcl]
        intro hcon
        simp only [Option.or_some] at hcon
        rw [hcl] at hJlast
        exact hJlast (by rw [hcon])
      · rw [List.head?_append_of_ne_nil x hx.1]
        intro hcon
        exact hx.2 (List.mem_of_mem_head? hcon)

/-- A string is a clean entry block: it contains no double newline and does
not end in a newline. -/
def CleanStr (e : String) : Prop := CleanB e.data

/-- Every line of the string is non-blank under the JS trim test. -/
def AllLinesNonBlank (d : String) : Prop :=
  ∀ l ∈ jsLines d, isBlank l = false

/-- A well-formed stored body: an ordered concatenation of clean,
delimiter-terminated entry blocks, as produced by the store operation. -/
def bodyOf (es : List String) : String :=
  String.mk (chunks (es.map String.data))

theorem bodyOf_nil : bodyOf [] = "" := rfl

theorem bodyOf_data (es : List String) :
    (bodyOf es).data = chunks (es.map String.data) := rfl

theorem bodyOf_append (es fs : List String) :
    bodyOf (es ++ fs) = bodyOf es ++ bodyOf fs := by
  apply String.ext
  rw [String.data_append]
  simp [bodyOf, chunks_append]

theorem bodyOf_single_data (e : String) :
    (bodyOf [e]).data = e.data ++ '\n' :: '\n' :: [] := by
  simp [bodyOf, chunks_cons, chunks_nil, nnSep]

theorem jsSplitEntries_bodyOf (es : List String)
    (hcl : ∀ e ∈ es, CleanStr e) :
    jsSplitEntries (bodyOf es) = es ++ [""] := by
  unfold jsSplitEntries
  rw [bodyOf_data, splitNN_chunks (es.map String.data)
    (by intro e he
        obtain ⟨s, hs, rfl⟩ := List.mem_map.mp he
        exact hcl s hs)]
  rw [List.map_append, List.map_map]
  have hid : (String.mk ∘ String.data) = id := by
    funext s
    rfl
  rw [hid, List.map_id]
  rfl

theorem isBlank_empty : isBlank "" = true := rfl

theorem addEntry_blank (m : Grouped) (e : String) (h : isBlank e = true) :
    addEntry m e = m := by
  unfold addEntry
  rw [if_pos h]

theorem decodeBody_bodyOf (es : List String) (hcl : ∀ e ∈ es, CleanStr e) :
    decodeBody (bodyOf es) = es.foldl addEntry [] := by
  unfold decodeBody
  rw [jsSplitEntries_bodyOf es hcl, List.foldl_append]
  simp only [List.foldl_cons, List.foldl_nil]
  exact addEntry_blank _ _ rfl

theorem jsLines_ne_nil (s : String) : jsLines s ≠ [] := by
  unfold jsLines
  intro hcon
  exact splitChar_ne_nil '\n' s.data (List.map_eq_nil_iff.mp hcon)

theorem allLines_data_ne_nil (d : String) (h : AllLinesNonBlank d) :
    d.data ≠ [] := by
  intro hcon
  have h0 : jsLines d = [""] := by
    unfold jsLines
    rw [hcon]
    rfl
  have h1 := h "" (by rw [h0]; simp)
  rw [isBlank_empty] at h1
  cases h1

theorem isBlank_false_iff (s : String) :
    isBlank s = false ↔ ∃ c ∈ s.data, isWS c = false := by
  unfold isBlank
  constructor
  · intro h
    by_contra hcon
    push_neg at hcon
    have hall : ∀ c ∈ s.data, isWS c = true := by
      intro c hc
      have := hcon c hc
      simpa using this
    have := (trimCh_eq_nil_iff s.data).mpr hall
    rw [this] at h
    cases h
  · intro ⟨c, hc, hw⟩
    cases hb : (trimCh s.data).isEmpty with
    | false => rfl
    | true =>
      have : trimCh s.data = [] := by
        rwa [List.isEmpty_iff] at hb
      have := (trimCh_eq_nil_iff s.data).mp this c hc
      rw [this] at hw
      cases hw

theorem allLines_clean (d : String) (h : AllLinesNonBlank d) :
    CleanB d.data ∧ d.data.head? ≠ some '\n' := by
  have hne := splitChar_ne_nil '\n' d.data
  have hp : ∀ p ∈ splitChar '\n' d.data, p ≠ [] ∧ '\n' ∉ p := by
    intro p hpmem
    refine ⟨?hne2, splitChar_not_mem '\n' d.data p hpmem⟩
    intro hcon
    have hmem2 : String.mk p ∈ jsLines d := by
      unfold jsLines
      exact List.mem_map_of_mem String.mk hpmem
    have hb := h (String.mk p) hmem2
    rw [hcon] at hb
    rw [isBlank_empty] at hb
    cases hb
  have := join_lines_clean (splitChar '\n' d.data) hne hp
  rwa [joinSep_splitChar '\n' d.data] at this

theorem filterNonBlank_eq_self (ls : List String)
    (h : ∀ l ∈ ls, isBlank l = false) : filterNonBlank ls = ls := by
  unfold filterNonBlank
  rw [List.filter_eq_self]
  intro l hl
  simp [h l hl]

theorem addEntry_untagged (m : Grouped) (e : String) (hb : isBlank e = false)
    (f : String) (rest : List String) (hfr : jsLines e = f :: rest)
    (hsh : startsHashSpace f = false) :
    addEntry m e = pushGroup m "untagged" (filterNonBlank (f :: rest)) := by
  unfold addEntry
  rw [if_neg (by simp [hb]), hfr]
  simp only [hsh]
  simp

theorem addEntry_tagged (m : Grouped) (e : String) (hb : isBlank e = false)
    (f : String) (rest : List String) (hfr : jsLines e = f :: rest)
    (hsh : startsHashSpace f = true) :
    addEntry m e
      = setGroup m (joinStr ' ' (jsWords (jsTrim (strDrop2 f))))
          (filterNonBlank rest) := by
  unfold addEntry
  rw [if_neg (by simp [hb]), hfr]
  simp only [hsh]
  simp

theorem tagKey_header (J : String) (hstable : trimCh J.data = J.data) :
    joinStr ' ' (jsWords (jsTrim (strDrop2 ("# " ++ J)))) = J := by
  have hdrop : strDrop2 ("# " ++ J) = J := by
    apply String.ext
    show ("# " ++ J).data.drop 2 = J.data
    rw [String.data_append]
    rfl
  rw [hdrop]
  have htrim : jsTrim J = J := by
    apply String.ext
    exact hstable
  rw [htrim]
  apply String.ext
  show joinSep [' '] (((splitChar ' ' J.data).map String.mk).map String.data) = J.data
  rw [List.map_map]
  have hid : (String.data ∘ String.mk) = id := by funext l; rfl
  rw [hid, List.map_id]
  exact joinSep_splitChar ' ' J.data

theorem jsLines_header_entry (hdr d : String) (hnl : '\n' ∉ hdr.data) :
    jsLines (hdr ++ "\n" ++ d) = hdr :: jsLines d := by
  unfold jsLines
  have hdata : (hdr ++ "\n" ++ d).data = hdr.data ++ '\n' :: d.data := by
    rw [String.data_append, String.data_append]
    simp
  rw [hdata, splitChar_append_cons '\n' hdr.data d.data hnl, List.map_cons]

theorem head_line_not_hash (e : String) (h : startsHashSpace e = false)
    (f : String) (rest : List String) (hfr : jsLines e = f :: rest) :
    startsHashSpace f = false := by
  unfold startsHashSpace at h ⊢
  cases hsp : ("# ".data).isPrefixOf f.data with
  | false => rfl
  | true =>
    exfalso
    have h1 : "# ".data <+: f.data := List.isPrefixOf_iff_prefix.mp hsp
    obtain ⟨h0, t0, hsplit, hf0⟩ :
        ∃ h0 t0, splitChar '\n' e.data = h0 :: t0 ∧ String.mk h0 = f := by
      unfold jsLines at hfr
      cases hs : splitChar '\n' e.data with
      | nil => exact absurd hs (splitChar_ne_nil '\n' e.data)
      | cons h0 t0 =>
        rw [hs] at hfr
        simp only [List.map_cons, List.cons.injEq] at hfr
        exact ⟨h0, t0, rfl, hfr.1⟩
    have h2 : h0 <+: e.data := splitChar_head_prefix_aux '\n' e.data h0 t0 hsplit
    have h3 : f.data = h0 := by rw [← hf0]
    have h4 : "# ".data <+: e.data := by
      rw [h3] at h1
      exact h1.trans h2
    rw [← List.isPrefixOf_iff_prefix ] at h4
    rw [h4] at h
    cases h

theorem getFile_remember_self (fs : MemFS) (category data : String)
    (tags : List String) (g : Bool) :
    getFile (remember fs category data tags g) g (category ++ ".txt")
      = some (((getFile fs g (category ++ ".txt")).getD "")
          ++ encodeEntry data tags) := by
  unfold remember appendFile
  exact getFile_setFile_self fs g (category ++ ".txt") _

theorem encodeEntry_untagged (d : String) : encodeEntry d [] = d ++ "\n\n" := by
  simp [encodeEntry]

theorem encodeEntry_tagged (d : String) (tags : List String) (h : tags ≠ []) :
    encodeEntry d tags = (("# " ++ joinStr ' ' tags) ++ "\n" ++ d) ++ "\n\n" := by
  unfold encodeEntry
  rw [if_pos (by simpa [List.length_pos] using h)]

theorem bodyOf_snoc (es : List String) (e : String) :
    bodyOf (es ++ [e]) = bodyOf es ++ (e ++ "\n\n") := by
  rw [bodyOf_append]
  congr 1
  apply String.ext
  rw [bodyOf_single_data, String.data_append]

theorem isBlank_false_of_allLines (d : String) (h : AllLinesNonBlank d) :
    isBlank d = false := by
  obtain ⟨h0, t0, hsplit⟩ : ∃ h0 t0, splitChar '\n' d.data = h0 :: t0 := by
    cases hs : splitChar '\n' d.data with
    | nil => exact absurd hs (splitChar_ne_nil '\n' d.data)
    | cons h0 t0 => exact ⟨h0, t0, rfl⟩
  have hmem : String.mk h0 ∈ jsLines d := by
    unfold jsLines
    rw [hsplit]
    simp
  have hb := h (String.mk h0) hmem
  obtain ⟨c, hc, hw⟩ := (isBlank_false_iff (String.mk h0)).mp hb
  apply (isBlank_false_iff d).mpr
  refine ⟨c, ?hmem2, hw⟩
  have hpre : h0 <+: d.data := splitChar_head_prefix_aux '\n' d.data h0 t0 hsplit
  exact hpre.mem hc

theorem hasNN_cons_nl (d : List Char) (hd : d.head? ≠ some '\n')
    (hnn : hasNN d = false) : hasNN ('\n' :: d) = false := by
  cases d with
  | nil => rfl
  | cons c0 r =>
    have hc0 : c0 ≠ '\n' := by
      intro hcon
      exact hd (by rw [hcon]; rfl)
    simp [hasNN, beq_eq_false_iff_ne.mpr hc0, hnn]

theorem clean_header_entry (hdr d : String) (hnl : '\n' ∉ hdr.data)
    (hd : AllLinesNonBlank d) : CleanStr (hdr ++ "\n" ++ d) := by
  obtain ⟨⟨hdnn, hdlast⟩, hdhead⟩ := allLines_clean d hd
  have hdata : (hdr ++ "\n" ++ d).data = hdr.data ++ '\n' :: d.data := by
    rw [String.data_append, String.data_append]
    simp
  unfold CleanStr CleanB
  rw [hdata]
  constructor
  · exact hasNN_append_no_nl hdr.data d.data hnl (hasNN_cons_nl d.data hdhead hdnn)
  · obtain ⟨c0, r, hcr⟩ : ∃ c0 r, d.data = c0 :: r := by
      cases hs : d.data with
      | nil => exact absurd hs (allLines_data_ne_nil d hd)
      | cons c0 r => exact ⟨c0, r, rfl⟩
    rw [List.getLast?_append, hcr, List.getLast?_cons_cons]
    obtain ⟨cl, hcl⟩ : ∃ cl, (c0 :: r).getLast? = some cl := by
      cases hg : (c0 :: r).getLast? with
      | none => simp at hg
      | some cl => exact ⟨cl, rfl⟩
    rw [hcl]
    intro hcon
    simp only [Option.or_some] at hcon
    rw [hcr, hcl] at hdlast
    exact hdlast (by rw [hcon])

theorem hash_space_data : ("# " : String).data = ['#', ' '] := rfl

theorem startsHashSpace_hdr (J : String) : startsHashSpace ("# " ++ J) = true := by
  unfold startsHashSpace
  rw [String.data_append, hash_space_data]
  simp [List.isPrefixOf]

theorem not_nl_mem_hash_hdr (J : String) (hJ : '\n' ∉ J.data) :
    '\n' ∉ ("# " ++ J).data := by
  rw [String.data_append, hash_space_data]
  intro hcon
  rcases List.mem_append.mp hcon with h1 | h2
  · simp at h1
  · exact hJ h2

theorem isBlank_hash_entry (hdr rest : String) :
    isBlank (("# " ++ hdr) ++ rest) = false := by
  apply (isBlank_false_iff _).mpr
  refine ⟨'#', ?hmem, rfl⟩
  rw [String.data_append, String.data_append, hash_space_data]
  simp

/-- General store-then-retrieve lemma over a well-formed prior body: the
freshly stored data's lines appear as a suffix of the group selected by the
tag key, or of the untagged group when no tags are given. -/
theorem store_then_retrieve_suffix
    (fs : MemFS) (es : List String) (category data : String)
    (tags : List String) (g : Bool)
    (hprior : (getFile fs g (category ++ ".txt")).getD "" = bodyOf es)
    (hcl : ∀ e ∈ es, CleanStr e)
    (hdata : AllLinesNonBlank data)
    (huntag : tags = [] → startsHashSpace data = false)
    (htagnl : tags ≠ [] → '\n' ∉ (joinStr ' ' tags).data)
    (htagtrim : tags ≠ [] → trimCh (joinStr ' ' tags).data = (joinStr ' ' tags).data) :
    ∃ found,
      getGroup (retrieveCategory (remember fs category data tags g) category g)
          (if tags = [] then "untagged" else joinStr ' ' tags) = some found
        ∧ jsLines data <:+ found := by
  have hget := getFile_remember_self fs category data tags g
  rw [hprior] at hget
  by_cases htags : tags = []
  · subst htags
    rw [encodeEntry_untagged, ← bodyOf_snoc] at hget
    have hcl' : ∀ e ∈ es ++ [data], CleanStr e := by
      intro e he
      rcases List.mem_append.mp he with h1 | h2
      · exact hcl e h1
      · rw [List.mem_singleton.mp h2]
        exact (allLines_clean data hdata).1
    have hretr : retrieveCategory (remember fs category data [] g) category g
        = decodeBody (bodyOf (es ++ [data])) := by
      unfold retrieveCategory
      rw [hget]
    rw [hretr, decodeBody_bodyOf _ hcl', List.foldl_append]
    simp only [List.foldl_cons, List.foldl_nil]
    obtain ⟨f, rest, hfr⟩ : ∃ f rest, jsLines data = f :: rest := by
      cases hs : jsLines data with
      | nil => exact absurd hs (jsLines_ne_nil data)
      | cons f rest => exact ⟨f, rest, rfl⟩
    rw [addEntry_untagged (es.foldl addEntry []) data
      (isBlank_false_of_allLines data hdata) f rest hfr
      (head_line_not_hash data (huntag rfl) f rest hfr)]
    rw [← hfr, filterNonBlank_eq_self _ hdata]
    rw [if_pos trivial]
    refine ⟨(getGroup (es.foldl addEntry []) "untagged").getD [] ++ jsLines data,
      ?h1, ?h2⟩
    · exact getGroup_pushGroup_self _ _ _
    · exact List.suffix_append _ _
  · have hJnl := htagnl htags
    have hJtrim := htagtrim htags
    rw [encodeEntry_tagged data tags htags, ← bodyOf_snoc] at hget
    have hcle' : CleanStr (("# " ++ joinStr ' ' tags) ++ "\n" ++ data) :=
      clean_header_entry ("# " ++ joinStr ' ' tags) data
        (not_nl_mem_hash_hdr (joinStr ' ' tags) hJnl) hdata
    have hcl' : ∀ e ∈ es ++ [("# " ++ joinStr ' ' tags) ++ "\n" ++ data],
        CleanStr e := by
      intro e he
      rcases List.mem_append.mp he with h1 | h2
      · exact hcl e h1
      · rw [List.mem_singleton.mp h2]
        exact hcle'
    have hretr : retrieveCategory (remember fs category data tags g) category g
        = decodeBody (bodyOf (es ++ [("# " ++ joinStr ' ' tags) ++ "\n" ++ data])) := by
      unfold retrieveCategory
      rw [hget]
    rw [hretr, decodeBody_bodyOf _ hcl', List.foldl_append]
    simp only [List.foldl_cons, List.foldl_nil]
    have hlines : jsLines (("# " ++ joinStr ' ' tags) ++ "\n" ++ data)
        = ("# " ++ joinStr ' ' tags) :: jsLines data :=
      jsLines_header_entry ("# " ++ joinStr ' ' tags) data
        (not_nl_mem_hash_hdr (joinStr ' ' tags) hJnl)
    have hblank : isBlank (("# " ++ joinStr ' ' tags) ++ "\n" ++ data) = false := by
      apply (isBlank_false_iff _).mpr
      refine ⟨'#', ?hm, rfl⟩
      simp [String.data_append, hash_space_data]
    rw [addEntry_tagged _ _ hblank ("# " ++ joinStr ' ' tags) (jsLines data)
      hlines (startsHashSpace_hdr (joinStr ' ' tags))]
    rw [tagKey_header (joinStr ' ' tags) hJtrim]
    rw [filterNonBlank_eq_self _ hdata]
    rw [if_neg htags]
    exact ⟨jsLines data, getGroup_setGroup_self _ _ _, List.suffix_refl _⟩

/-- Storing the same untagged data twice appends two separate entries, so
the untagged group ends with the data's lines twice. -/
theorem double_store_untagged
    (fs : MemFS) (es : List String) (category data : String) (g : Bool)
    (hprior : (getFile fs g (category ++ ".txt")).getD "" = bodyOf es)
    (hcl : ∀ e ∈ es, CleanStr e)
    (hdata : AllLinesNonBlank data)
    (hhash : startsHashSpace data = false) :
    ∃ pre, getGroup (retrieveCategory
        (remember (remember fs category data [] g) category data [] g) category g)
        "untagged" = some (pre ++ jsLines data ++ jsLines data) := by
  obtain ⟨f, rest, hfr⟩ : ∃ f rest, jsLines data = f :: rest := by
    cases hs : jsLines data with
    | nil => exact absurd hs (jsLines_ne_nil data)
    | cons f rest => exact ⟨f, rest, rfl⟩
  have hb := isBlank_false_of_allLines data hdata
  have hnh := head_line_not_hash data hhash f rest hfr
  have hcld : CleanStr data := (allLines_clean data hdata).1
  have hget1 := getFile_remember_self fs category data [] g
  rw [hprior, encodeEntry_untagged, ← bodyOf_snoc] at hget1
  have hget2 := getFile_remember_self (remember fs category data [] g)
    category data [] g
  rw [hget1] at hget2
  simp only [Option.getD_some] at hget2
  rw [encodeEntry_untagged, ← bodyOf_snoc] at hget2
  have hcl' : ∀ e ∈ (es ++ [data]) ++ [data], CleanStr e := by
    intro e he
    rcases List.mem_append.mp he with h1 | h2
    · rcases List.mem_append.mp h1 with h3 | h4
      · exact hcl e h3
      · rw [List.mem_singleton.mp h4]; exact hcld
    · rw [List.mem_singleton.mp h2]; exact hcld
  have hretr : retrieveCategory
      (remember (remember fs category data [] g) category data [] g) category g
      = decodeBody (bodyOf ((es ++ [data]) ++ [data])) := by
    unfold retrieveCategory
    rw [hget2]
  rw [hretr, decodeBody_bodyOf _ hcl', List.foldl_append, List.foldl_append]
  simp only [List.foldl_cons, List.foldl_nil]
  rw [addEntry_untagged _ data hb f rest hfr hnh, ← hfr,
    filterNonBlank_eq_self _ hdata]
  rw [addEntry_untagged _ data hb f rest hfr hnh, ← hfr,
    filterNonBlank_eq_self _ hdata]
  refine ⟨(getGroup (es.foldl addEntry []) "untagged").getD [], ?hh⟩
  rw [getGroup_pushGroup_self, getGroup_pushGroup_self]
  simp

/-- The first line of an entry, as inspected by the decoder's loop body. -/
def headLine (e : String) : String := (jsLines e).headD ""

/-- The group key the decoder derives from a tag header line. -/
def tagKeyOf (f : String) : String := joinStr ' ' (jsWords (jsTrim (strDrop2 f)))

theorem headLine_eq (e f : String) (rest : List String)
    (hfr : jsLines e = f :: rest) : headLine e = f := by
  unfold headLine
  rw [hfr]
  rfl

theorem first_line_prefix (e f : String) (rest : List String)
    (hfr : jsLines e = f :: rest) : f.data <+: e.data := by
  obtain ⟨h0, t0, hsplit, hf0⟩ :
      ∃ h0 t0, splitChar '\n' e.data = h0 :: t0 ∧ String.mk h0 = f := by
    unfold jsLines at hfr
    cases hs : splitChar '\n' e.data with
    | nil => exact absurd hs (splitChar_ne_nil '\n' e.data)
    | cons h0 t0 =>
      rw [hs] at hfr
      simp only [List.map_cons, List.cons.injEq] at hfr
      exact ⟨h0, t0, rfl, hfr.1⟩
  have h2 := splitChar_head_prefix_aux '\n' e.data h0 t0 hsplit
  have h3 : f.data = h0 := by rw [← hf0]
  rw [h3]
  exact h2

theorem isBlank_false_of_hash_line (e f : String) (rest : List String)
    (hfr : jsLines e = f :: rest) (hsh : startsHashSpace f = true) :
    isBlank e = false := by
  apply (isBlank_false_iff e).mpr
  refine ⟨'#', ?hm, rfl⟩
  have hpre : f.data <+: e.data := first_line_prefix e f rest hfr
  have hhash : "# ".data <+: f.data := List.isPrefixOf_iff_prefix.mp hsh
  have : '#' ∈ f.data := hhash.mem (by rw [hash_space_data]; simp)
  exact hpre.mem this

/-- The decoder's step on a non-blank entry whose first line carries the tag
marker: assign the derived key to the entry's non-blank tail lines. -/
theorem addEntry_eq_tagged (m : Grouped) (e : String) (hb : isBlank e = false)
    (hsh : startsHashSpace (headLine e) = true) :
    addEntry m e
      = setGroup m (tagKeyOf (headLine e))
          (filterNonBlank ((jsLines e).tail)) := by
  obtain ⟨f, rest, hfr⟩ : ∃ f rest, jsLines e = f :: rest := by
    cases hs : jsLines e with
    | nil => exact absurd hs (jsLines_ne_nil e)
    | cons f rest => exact ⟨f, rest, rfl⟩
  have hf : headLine e = f := headLine_eq e f rest hfr
  rw [hf] at hsh
  rw [addEntry_tagged m e hb f rest hfr hsh, hf, hfr]
  rfl

/-- The decoder's step on a non-blank entry without a tag header: push all
of its non-blank lines onto the untagged group. -/
theorem addEntry_eq_untagged (m : Grouped) (e : String)
    (hb : isBlank e = false)
    (hsh : startsHashSpace (headLine e) = false) :
    addEntry m e = pushGroup m "untagged" (filterNonBlank (jsLines e)) := by
  obtain ⟨f, rest, hfr⟩ : ∃ f rest, jsLines e = f :: rest := by
    cases hs : jsLines e with
    | nil => exact absurd hs (jsLines_ne_nil e)
    | cons f rest => exact ⟨f, rest, rfl⟩
  have hf : headLine e = f := headLine_eq e f rest hfr
  rw [hf] at hsh
  rw [addEntry_untagged m e hb f rest hfr hsh, ← hfr]

/-- A non-blank tagged entry always exists behind a hash-marked head line. -/
theorem isBlank_false_of_hash_headLine (e : String)
    (hsh : startsHashSpace (headLine e) = true) : isBlank e = false := by
  obtain ⟨f, rest, hfr⟩ : ∃ f rest, jsLines e = f :: rest := by
    cases hs : jsLines e with
    | nil => exact absurd hs (jsLines_ne_nil e)
    | cons f rest => exact ⟨f, rest, rfl⟩
  have hf : headLine e = f := headLine_eq e f rest hfr
  rw [hf] at hsh
  exact isBlank_false_of_hash_line e f rest hfr hsh

/-- Folding entries that are blank, tagged with a different key, or untagged
while the observed key is not the untagged key, never changes the observed
key's group. -/
theorem fold_preserve_key (es : List String) (M : Grouped) (K : String)
    (h : ∀ e ∈ es, isBlank e = true ∨
      (startsHashSpace (headLine e) = true ∧ tagKeyOf (headLine e) ≠ K) ∨
      (startsHashSpace (headLine e) = false ∧ K ≠ "untagged")) :
    getGroup (es.foldl addEntry M) K = getGroup M K := by
  induction es generalizing M with
  | nil => rfl
  | cons e es' ih =>
    simp only [List.foldl_cons]
    rw [ih _ (fun q hq => h q (List.mem_cons_of_mem _ hq))]
    rcases h e (by simp) with hbl | ⟨hsh, hne⟩ | ⟨hsh, hne⟩
    · rw [addEntry_blank M e hbl]
    · rw [addEntry_eq_tagged M e (isBlank_false_of_hash_headLine e hsh) hsh]
      exact getGroup_setGroup_ne _ _ _ _ (Ne.symm hne)
    · by_cases hb : isBlank e
      · rw [addEntry_blank M e hb]
      · rw [addEntry_eq_untagged M e (by simpa using hb) hsh]
        exact getGroup_pushGroup_ne _ _ _ _ hne

/-- Folding a mixed body of non-blank entries, none of whose tag headers
derives the untagged key, accumulates the untagged entries' non-blank lines
in entry order onto the untagged group; tagged entries do not disturb it. -/
theorem fold_mixed_untagged (es : List String) (M : Grouped)
    (hblank : ∀ e ∈ es, isBlank e = false)
    (hkey : ∀ e ∈ es, startsHashSpace (headLine e) = true →
        tagKeyOf (headLine e) ≠ "untagged")
    (hne : es.filter (fun e => !(startsHashSpace (headLine e))) ≠ []) :
    getGroup (es.foldl addEntry M) "untagged"
      = some ((getGroup M "untagged").getD []
          ++ ((es.filter (fun e => !(startsHashSpace (headLine e)))).map
              (fun e => filterNonBlank (jsLines e))).flatten) := by
  induction es generalizing M with
  | nil => exact absurd rfl hne
  | cons e es' ih =>
    simp only [List.foldl_cons]
    by_cases hsh : startsHashSpace (headLine e) = true
    · have hb : isBlank e = false := hblank e (by simp)
      have hne' : es'.filter (fun q => !(startsHashSpace (headLine q))) ≠ [] := by
        simpa [List.filter_cons, hsh] using hne
      rw [addEntry_eq_tagged M e hb hsh]
      rw [ih _ (fun q hq => hblank q (List.mem_cons_of_mem _ hq))
        (fun q hq => hkey q (List.mem_cons_of_mem _ hq)) hne']
      rw [getGroup_setGroup_ne _ _ _ _ (Ne.symm (hkey e (by simp) hsh))]
      have hfe : (e :: es').filter (fun q => !(startsHashSpace (headLine q)))
          = es'.filter (fun q => !(startsHashSpace (headLine q))) := by
        simp [List.filter_cons, hsh]
      rw [hfe]
    · have hb : isBlank e = false := hblank e (by simp)
      have hsh' : startsHashSpace (headLine e) = false := by simpa using hsh
      rw [addEntry_eq_untagged M e hb hsh']
      have hfe : (e :: es').filter (fun q => !(startsHashSpace (headLine q)))
          = e :: es'.filter (fun q => !(startsHashSpace (headLine q))) := by
        simp [List.filter_cons, hsh']
      rw [hfe]
      by_cases hne' : es'.filter (fun q => !(startsHashSpace (headLine q))) = []
      · have hall : ∀ q ∈ es', startsHashSpace (headLine q) = true := by
          intro q hq
          have := List.filter_eq_nil_iff.mp hne' q hq
          simpa using this
        rw [fold_preserve_key es' _ "untagged"
          (fun q hq => Or.inr (Or.inl ⟨hall q hq,
            hkey q (List.mem_cons_of_mem _ hq) (hall q hq)⟩))]
        rw [getGroup_pushGroup_self, hne']
        simp
      · rw [ih _ (fun q hq => hblank q (List.mem_cons_of_mem _ hq))
          (fun q hq => hkey q (List.mem_cons_of_mem _ hq)) hne']
        rw [getGroup_pushGroup_self]
        simp [List.append_assoc]

/-! ## Wildcard retrieval machinery -/

theorem getGroup_wildcardStep_no_produce (fs : MemFS) (g : Bool) (M : Grouped)
    (file c : String)
    (h : stripTxt file = c →
      (".txt".data).isSuffixOf file.data = false ∨ retrieveCategory fs c g = []) :
    getGroup (wildcardStep fs g M file) c = getGroup M c := by
  unfold wildcardStep
  by_cases hsuf : (".txt".data).isSuffixOf file.data
  · rw [if_pos hsuf]
    by_cases hstrip : stripTxt file = c
    · rcases h hstrip with h1 | h2
      · rw [hsuf] at h1; cases h1
      · simp only [hstrip, h2]
        simp
    · by_cases hlen : (retrieveCategory fs (stripTxt file) g).length > 0
      · simp only [if_pos hlen]
        exact getGroup_setGroup_ne M (stripTxt file) c _
          (fun hcon => hstrip hcon.symm)
      · simp only [if_neg hlen]
  · rw [if_neg hsuf]

theorem getGroup_foldl_no_produce (fs : MemFS) (g : Bool) (c : String)
    (files : List String) (M : Grouped)
    (h : ∀ f ∈ files, stripTxt f = c →
      (".txt".data).isSuffixOf f.data = false ∨ retrieveCategory fs c g = []) :
    getGroup (files.foldl (wildcardStep fs g) M) c = getGroup M c := by
  induction files generalizing M with
  | nil => rfl
  | cons f files' ih =>
    simp only [List.foldl_cons]
    rw [ih _ (fun q hq => h q (by simp [hq]))]
    exact getGroup_wildcardStep_no_produce fs g M f c (h f (by simp))

theorem getGroup_foldl_produce (fs : MemFS) (g : Bool) (c : String)
    (files : List String) (M : Grouped)
    (hne : retrieveCategory fs c g ≠ [])
    (hex : ∃ f ∈ files,
      (".txt".data).isSuffixOf f.data = true ∧ stripTxt f = c) :
    getGroup (files.foldl (wildcardStep fs g) M) c
      = some (flattenVals (retrieveCategory fs c g)) := by
  induction files generalizing M with
  | nil =>
    obtain ⟨f, hf, _⟩ := hex
    cases hf
  | cons f files' ih =>
    simp only [List.foldl_cons]
    by_cases hprod : (".txt".data).isSuffixOf f.data = true ∧ stripTxt f = c
    · have hlen : (retrieveCategory fs (stripTxt f) g).length > 0 := by
        rw [hprod.2]
        exact List.length_pos.mpr hne
      have hstep : wildcardStep fs g M f
          = setGroup M c (flattenVals (retrieveCategory fs c g)) := by
        unfold wildcardStep
        rw [if_pos hprod.1]
        simp only [hprod.2]
        rw [if_pos (List.length_pos.mpr hne)]
      by_cases hex' : ∃ f' ∈ files',
          (".txt".data).isSuffixOf f'.data = true ∧ stripTxt f' = c
      · exact ih _ hex'
      · push_neg at hex'
        rw [getGroup_foldl_no_produce fs g c files' _ ?hnp]
        · rw [hstep]
          exact getGroup_setGroup_self _ _ _
        · intro q hq hstrip
          rcases hsq : (".txt".data).isSuffixOf q.data with _ | _
          · exact Or.inl rfl
          · exact absurd hstrip (hex' q hq hsq)
    · have hex2 : ∃ f' ∈ files',
          (".txt".data).isSuffixOf f'.data = true ∧ stripTxt f' = c := by
        obtain ⟨f0, hf0, hp0⟩ := hex
        rcases List.mem_cons.mp hf0 with rfl | hmem
        · exact absurd hp0 hprod
        · exact ⟨f0, hmem, hp0⟩
      exact ih _ hex2

/-! ## Blank bodies decode to the empty view -/

theorem mem_joinSep_single (a : Char) (parts : List (List Char)) (c : Char)
    (h : c ∈ joinSep [a] parts) : c = a ∨ ∃ p ∈ parts, c ∈ p := by
  induction parts with
  | nil => cases h
  | cons x t ih =>
    cases t with
    | nil =>
      right
      exact ⟨x, by simp, by simpa [joinSep] using h⟩
    | cons y t' =>
      have hj : joinSep [a] (x :: y :: t') = x ++ [a] ++ joinSep [a] (y :: t') := by
        simp [joinSep]
      rw [hj] at h
      rcases List.mem_append.mp h with h1 | h2
      · rcases List.mem_append.mp h1 with h3 | h4
        · exact Or.inr ⟨x, by simp, h3⟩
        · exact Or.inl (by simpa using h4)
      · rcases ih h2 with h5 | ⟨p, hp, hcp⟩
        · exact Or.inl h5
        · exact Or.inr ⟨p, List.mem_cons_of_mem x hp, hcp⟩

theorem mem_of_mem_splitNN (l : List Char) :
    ∀ seg ∈ splitNN l, ∀ c ∈ seg, c ∈ l := by
  induction l using splitNN.induct with
  | case1 =>
    intro seg hseg c hc
    simp [splitNN] at hseg
    rw [hseg] at hc
    cases hc
  | case2 c0 =>
    intro seg hseg c hc
    simp [splitNN] at hseg
    rw [hseg] at hc
    exact hc
  | case3 c0 d rest hnn ih =>
    obtain ⟨rfl, rfl⟩ := hnn
    intro seg hseg c hc
    rw [show splitNN ('\n' :: '\n' :: rest) = [] :: splitNN rest from by
      simp [splitNN]] at hseg
    rcases List.mem_cons.mp hseg with rfl | hmem
    · cases hc
    · exact List.mem_cons_of_mem _ (List.mem_cons_of_mem _ (ih seg hmem c hc))
  | case4 c0 d rest hnn hs ih =>
    intro seg hseg c hc
    exact absurd hs (splitNN_ne_nil _)
  | case5 c0 d rest hnn hh tt hht ih =>
    intro seg hseg c hc
    rw [show splitNN (c0 :: d :: rest) =
        match splitNN (d :: rest) with
        | [] => [[c0]]
        | h :: t => (c0 :: h) :: t from by simp [splitNN, hnn]] at hseg
    rw [hht] at hseg
    rcases List.mem_cons.mp hseg with rfl | hmem
    · rcases List.mem_cons.mp hc with rfl | hc2
      · simp
      · have hhh : hh ∈ splitNN (d :: rest) := by rw [hht]; simp
        exact List.mem_cons_of_mem _ (ih hh hhh c hc2)
    · have hsg : seg ∈ splitNN (d :: rest) := by
        rw [hht]
        exact List.mem_cons_of_mem _ hmem
      exact List.mem_cons_of_mem _ (ih seg hsg c hc)

theorem body_allWS_of_allLinesBlank (body : String)
    (h : ∀ l ∈ jsLines body, isBlank l = true) :
    ∀ c ∈ body.data, isWS c = true := by
  intro c hc
  rw [← joinSep_splitChar '\n' body.data] at hc
  rcases mem_joinSep_single '\n' _ c hc with rfl | ⟨p, hp, hcp⟩
  · rfl
  · have hb := h (String.mk p) (by unfold jsLines; exact List.mem_map_of_mem _ hp)
    have ht : trimCh p = [] := by
      unfold isBlank at hb
      rwa [List.isEmpty_iff] at hb
    exact (trimCh_eq_nil_iff p).mp ht c hcp

theorem foldl_addEntry_blank (L : List String) (M : Grouped)
    (h : ∀ e ∈ L, isBlank e = true) : L.foldl addEntry M = M := by
  induction L generalizing M with
  | nil => rfl
  | cons e L' ih =>
    simp only [List.foldl_cons]
    rw [addEntry_blank M e (h e (by simp))]
    exact ih M (fun q hq => h q (by simp [hq]))

theorem decodeBody_blank (body : String)
    (h : ∀ l ∈ jsLines body, isBlank l = true) : decodeBody body = [] := by
  unfold decodeBody
  apply foldl_addEntry_blank
  intro e he
  unfold jsSplitEntries at he
  obtain ⟨seg, hseg, rfl⟩ := List.mem_map.mp he
  unfold isBlank
  rw [List.isEmpty_iff]
  apply (trimCh_eq_nil_iff seg).mpr
  intro c hcseg
  exact body_allWS_of_allLinesBlank body h c
    (mem_of_mem_splitNN body.data seg hseg c hcseg)

/-! ## remove_specific_memory on well-formed bodies -/

theorem string_data_eq_nil_iff (s : String) : s.data = [] ↔ s = "" := by
  constructor
  · intro h
    apply String.ext
    rw [h]
  · intro h
    rw [h]

theorem containsSub_empty_left (m : String) (hm : m ≠ "") :
    containsSub "" m = false := by
  unfold containsSub
  show listContains m.data [] = false
  cases hd : m.data with
  | nil => exact absurd ((string_data_eq_nil_iff m).mp hd) hm
  | cons c r =>
    simp [listContains, hd]

theorem joinEntriesStr_append_empty (xs : List String) :
    joinEntriesStr (xs ++ [""]) = bodyOf xs := by
  unfold joinEntriesStr
  apply String.ext
  show joinSep nnSep ((xs ++ [""]).map String.data) = (bodyOf xs).data
  rw [List.map_append]
  show joinSep nnSep (xs.map String.data ++ [[]]) = (bodyOf xs).data
  rw [joinSep_append_nil]
  rfl

theorem removeEntryBody_wf (m : String) (es : List String) (hm : m ≠ "")
    (hcl : ∀ e ∈ es, CleanStr e) :
    removeEntryBody m (bodyOf es)
      = bodyOf (es.filter (fun e => !(containsSub e m))) := by
  unfold removeEntryBody
  rw [jsSplitEntries_bodyOf es hcl, List.filter_append]
  have hemp : List.filter (fun memory => !(containsSub memory m)) [""] = [""] := by
    simp [List.filter_cons, containsSub_empty_left m hm]
  rw [hemp, joinEntriesStr_append_empty]

theorem removeEntryBody_no_match (m body : String)
    (hno : ∀ seg ∈ jsSplitEntries body, containsSub seg m = false) :
    removeEntryBody m body = body := by
  unfold removeEntryBody
  rw [List.filter_eq_self.mpr (by intro seg hseg; simp [hno seg hseg])]
  unfold joinEntriesStr jsSplitEntries
  apply String.ext
  show joinSep nnSep (((splitNN body.data).map String.mk).map String.data)
      = body.data
  rw [List.map_map]
  have hid : (String.data ∘ String.mk) = id := by funext l; rfl
  rw [hid, List.map_id]
  exact joinSep_splitNN body.data

theorem removeSpecific_wf (fs : MemFS) (g : Bool) (category m : String)
    (es : List String) (hm : m ≠ "") (hcl : ∀ e ∈ es, CleanStr e)
    (hbody : getFile fs g (category ++ ".txt") = some (bodyOf es)) :
    getFile (removeSpecificMemory fs category m g) g (category ++ ".txt")
      = some (bodyOf (es.filter (fun e => !(containsSub e m)))) := by
  unfold removeSpecificMemory
  rw [hbody, getFile_setFile_self, removeEntryBody_wf m es hm hcl]

/-! ## Scope isolation at the operation level -/

theorem bool_not_ne (g : Bool) : (!g) ≠ g := by
  cases g <;> simp

theorem retrieveCategory_filterScope (fs : MemFS) (c : String) (g : Bool) :
    retrieveCategory (filterScope fs g) c g = retrieveCategory fs c g := by
  unfold retrieveCategory
  rw [getFile_filterScope]

theorem retrieveAll_congr (fs fs' : MemFS) (g : Bool)
    (hdir : listDir fs' g = listDir fs g)
    (hcat : ∀ c, retrieveCategory fs' c g = retrieveCategory fs c g) :
    retrieveAll fs' g = retrieveAll fs g := by
  unfold retrieveAll
  rw [hdir]
  have hstep : ∀ M file, wildcardStep fs' g M file = wildcardStep fs g M file := by
    intro M file
    unfold wildcardStep
    simp only [hcat]
  have hfold : ∀ (L : List String) (M : Grouped),
      L.foldl (wildcardStep fs' g) M = L.foldl (wildcardStep fs g) M := by
    intro L
    induction L with
    | nil => intro M; rfl
    | cons f L' ih =>
      intro M
      simp only [List.foldl_cons, hstep, ih]
  exact hfold _ _

theorem retrieveAll_filterScope (fs : MemFS) (g : Bool) :
    retrieveAll (filterScope fs g) g = retrieveAll fs g :=
  retrieveAll_congr fs (filterScope fs g) g (listDir_filterScope fs g)
    (fun c => retrieveCategory_filterScope fs c g)

theorem retrieveMemories_filterScope (fs : MemFS) (c : String) (g : Bool) :
    retrieveMemories (filterScope fs g) c g = retrieveMemories fs c g := by
  unfold retrieveMemories
  by_cases h : c = "*"
  · rw [if_pos h, if_pos h, retrieveAll_filterScope]
  · rw [if_neg h, if_neg h, retrieveCategory_filterScope]

theorem filterScope_remember_other (fs : MemFS) (category data : String)
    (tags : List String) (g : Bool) :
    filterScope (remember fs category data tags g) (!g) = filterScope fs (!g) := by
  unfold remember appendFile
  exact filterScope_setFile_other fs g (!g) _ _ (bool_not_ne g)

theorem filterScope_removeMemoryCategory_other (fs : MemFS) (category : String)
    (g : Bool) :
    filterScope (removeMemoryCategory fs category g) (!g)
      = filterScope fs (!g) := by
  unfold removeMemoryCategory
  by_cases h : category = "*"
  · rw [if_pos h]
    exact filterScope_emptyDir_other fs g (!g) (bool_not_ne g)
  · rw [if_neg h]
    exact filterScope_removeFile_other fs g (!g) _ (bool_not_ne g)

theorem filterScope_removeSpecific_other (fs : MemFS) (category m : String)
    (g : Bool) :
    filterScope (removeSpecificMemory fs category m g) (!g)
      = filterScope fs (!g) := by
  unfold removeSpecificMemory
  cases hf : getFile fs g (category ++ ".txt") with
  | none => rfl
  | some content =>
    exact filterScope_setFile_other fs g (!g) _ _ (bool_not_ne g)

theorem retrieveMemories_remember_other (fs : MemFS) (c' category data : String)
    (tags : List String) (g : Bool) :
    retrieveMemories (remember fs category data tags g) c' (!g)
      = retrieveMemories fs c' (!g) := by
  rw [← retrieveMemories_filterScope (remember fs category data tags g) c' (!g),
    ← retrieveMemories_filterScope fs c' (!g),
    filterScope_remember_other]

/-! ## Tool-level results: the caller-visible outcome of each handler -/

/-- The caller-visible outcome of a tool call: a text payload and the
isError flag of the result content returned by the handler. -/
structure ToolResult where
  isError : Bool
  message : String
deriving DecidableEq

/-- remember_memory handler: a storage error thrown while appending is
caught and converted to an error-flagged result carrying the message; on
success the file is appended and a confirmation text is returned. The
fault argument injects the storage error the try/catch guards against. -/
def rememberTool (fault : Option String) (fs : MemFS) (category data : String)
    (tags : List String) (g : Bool) : MemFS × ToolResult :=
  match fault with
  | some msg => (fs, { isError := true, message := "Error: " ++ msg })
  | none => (remember fs category data tags g,
      { isError := false,
        message := "Successfully stored memory in category: " ++ category })

/-- retrieve_memories handler: decodes and returns the grouped view (whose
JSON rendering is the success text); a storage error is caught and becomes
an error-flagged result carrying the message. -/
def retrieveTool (fault : Option String) (fs : MemFS) (category : String)
    (g : Bool) : Grouped × ToolResult :=
  match fault with
  | some msg => ([], { isError := true, message := "Error: " ++ msg })
  | none => (retrieveMemories fs category g, { isError := false, message := "" })

/-- remove_memory_category handler: wildcard clears the scope, otherwise the
category file is deleted; a storage error is caught and becomes an
error-flagged result carrying the message. -/
def removeCategoryTool (fault : Option String) (fs : MemFS) (category : String)
    (g : Bool) : MemFS × ToolResult :=
  match fault with
  | some msg => (fs, { isError := true, message := "Error: " ++ msg })
  | none =>
    (removeMemoryCategory fs category g,
      { isError := false,
        message :=
          if category = "*" then
            "Cleared all " ++ (if g then "global" else "local")
              ++ " memory categories"
          else "Cleared memories in category: " ++ category })

/-- remove_specific_memory handler: rewrites the category file without the
matching entries; a storage error is caught and becomes an error-flagged
result carrying the message. -/
def removeSpecificTool (fault : Option String) (fs : MemFS)
    (category memoryContent : String) (g : Bool) : MemFS × ToolResult :=
  match fault with
  | some msg => (fs, { isError := true, message := "Error: " ++ msg })
  | none => (removeSpecificMemory fs category memoryContent g,
      { isError := false,
        message := "Removed specific memory from category: " ++ category })

/-- Modelled from the spec: the protocol layer validates the declared zod
input schema before the remember_memory handler runs; an empty required
string is rejected with the schema's message and the handler never
executes, so storage is left untouched. The schema itself, with its
min-length-one constraints and messages, is declared in the source. -/
def rememberToolValidated (fault : Option String) (fs : MemFS)
    (category data : String) (tags : List String) (g : Bool) :
    MemFS × ToolResult :=
  if category.length ≥ 1 then
    if data.length ≥ 1 then rememberTool fault fs category data tags g
    else (fs, { isError := true, message := "Data must not be empty" })
  else (fs, { isError := true, message := "Category must not be empty" })

/-! ## The MemoryManager variant: its handlers wrap and rethrow -/

/-- MemoryManager.remember: a storage failure makes it throw a MemoryError
whose message wraps the underlying error text. -/
def mmRemember (fault : Option String) : Except String Unit :=
  match fault with
  | some e => Except.error ("Failed to remember memory: " ++ e)
  | none => Except.ok ()

/-- The remember_memory handler registered by MemoryManager.registerWithServer:
it catches the MemoryError and throws a new wrapped Error instead of
returning an error-flagged result, so the exception propagates to the
protocol layer. -/
def mmRememberHandler (fault : Option String) (category : String) :
    Except String ToolResult :=
  match mmRemember fault with
  | Except.ok _ =>
      Except.ok
        { isError := false,
          message := "Successfully stored memory in category: " ++ category }
  | Except.error msg => Except.error ("Failed to store memory: " ++ msg)

instance (e : String) : Decidable (CleanStr e) := by
  unfold CleanStr
  infer_instance

instance (d : String) : Decidable (AllLinesNonBlank d) := by
  unfold AllLinesNonBlank
  infer_instance

/-! ## Claim theorems -/

/-- C1 counterexample: with empty tags and data whose first line begins with
the hash-space marker, the stored data is filed under the tag key derived
from its own first line, not under the untagged key, refuting the claim as
stated for arbitrary data. -/
theorem c1_counterexample :
    getFile (remember [] "c" "# x\ny" [] false) false "c.txt" = some "# x\ny\n\n"
      ∧ getGroup (retrieveCategory (remember [] "c" "# x\ny" [] false) "c" false)
          "untagged" = none
      ∧ getGroup (retrieveCategory (remember [] "c" "# x\ny" [] false) "c" false)
          "x" = some ["y"] := by
  refine ⟨?h1, ?h2, ?h3⟩ <;> decide

/-- C1 (amended): if the existing stored body is a well-formed concatenation
of clean delimiter-terminated entry blocks, every line of data is non-blank,
data does not begin with the hash-space marker when tags is empty, and the
space-joined tag string is newline-free and trim-stable when tags is
non-empty, then immediately after store the retrieved grouped mapping lists
data's lines (as a suffix) under the space-joined tag key, or under the
untagged key when tags is empty. -/
theorem c1_store_then_retrieve
    (fs : MemFS) (es : List String) (category data : String)
    (tags : List String) (g : Bool)
    (hprior : (getFile fs g (category ++ ".txt")).getD "" = bodyOf es)
    (hcl : ∀ e ∈ es, CleanStr e)
    (hdata : AllLinesNonBlank data)
    (huntag : tags = [] → startsHashSpace data = false)
    (htagnl : tags ≠ [] → '\n' ∉ (joinStr ' ' tags).data)
    (htagtrim : tags ≠ [] →
      trimCh (joinStr ' ' tags).data = (joinStr ' ' tags).data) :
    ∃ found,
      getGroup (retrieveCategory (remember fs category data tags g) category g)
          (if tags = [] then "untagged" else joinStr ' ' tags) = some found
        ∧ jsLines data <:+ found :=
  store_then_retrieve_suffix fs es category data tags g hprior hcl hdata
    huntag htagnl htagtrim

/-- C1 witness: a concrete tagged store into an empty store files the lines
of the data under the space-joined tag key. -/
theorem c1_store_then_retrieve_witness :
    ∃ found,
      getGroup (retrieveCategory
          (remember [] "notes" "hello\nworld" ["a", "b"] false) "notes" false)
          (if (["a", "b"] : List String) = [] then "untagged"
            else joinStr ' ' ["a", "b"]) = some found
        ∧ jsLines "hello\nworld" <:+ found :=
  c1_store_then_retrieve [] [] "notes" "hello\nworld" ["a", "b"] false
    (by decide) (by simp) (by decide) (by simp) (by decide) (by decide)

/-- C2 counterexample: two entries sharing the tag key keep only the second
entry's lines under that key, not the concatenation of both, because the
decoder assigns rather than appends for tagged entries. -/
theorem c2_counterexample :
    decodeBody "# t\na\n\n# t\nb\n\n" = [("t", ["b"])]
      ∧ getGroup (decodeBody "# t\na\n\n# t\nb\n\n") "t" ≠ some ["a", "b"] := by
  refine ⟨?h1, ?h2⟩ <;> decide

/-- C2 (amended): in the decoded grouped view of every well-formed body of
non-blank entries none of whose tag headers derives the literal key
untagged, the untagged key maps to the ordered concatenation of the
non-blank lines of all untagged entries, in entry order, undisturbed by
interleaved tagged entries; and any tag key other than untagged maps to the
non-blank tail lines of the last entry whose header derives that key only,
earlier same-key entries being overwritten rather than concatenated. -/
theorem c2_grouping_semantics :
    (∀ es : List String,
      (∀ e ∈ es, CleanStr e ∧ isBlank e = false) →
      (∀ e ∈ es, startsHashSpace (headLine e) = true →
        tagKeyOf (headLine e) ≠ "untagged") →
      es.filter (fun e => !(startsHashSpace (headLine e))) ≠ [] →
      getGroup (decodeBody (bodyOf es)) "untagged"
        = some (((es.filter (fun e => !(startsHashSpace (headLine e)))).map
            (fun e => filterNonBlank (jsLines e))).flatten))
    ∧ (∀ (pre : List String) (laste : String) (post : List String) (K : String),
      (∀ e ∈ pre ++ laste :: post, CleanStr e ∧ isBlank e = false) →
      startsHashSpace (headLine laste) = true →
      tagKeyOf (headLine laste) = K →
      K ≠ "untagged" →
      (∀ e ∈ post, startsHashSpace (headLine e) = true →
        tagKeyOf (headLine e) ≠ K) →
      getGroup (decodeBody (bodyOf (pre ++ laste :: post))) K
        = some (filterNonBlank ((jsLines laste).tail))) := by
  constructor
  · intro es hcl hkey hne
    rw [decodeBody_bodyOf es (fun e he => (hcl e he).1)]
    rw [fold_mixed_untagged es [] (fun e he => (hcl e he).2) hkey hne]
    simp [getGroup_nil]
  · intro pre laste post K hcl hsh hK hKu hpost
    rw [decodeBody_bodyOf _ (fun e he => (hcl e he).1)]
    have hsplit : (pre ++ laste :: post) = (pre ++ [laste]) ++ post := by simp
    rw [hsplit, List.foldl_append, List.foldl_append]
    simp only [List.foldl_cons, List.foldl_nil]
    have hblaste : isBlank laste = false := (hcl laste (by simp)).2
    rw [fold_preserve_key post _ K ?hpres]
    · rw [addEntry_eq_tagged _ laste hblaste hsh, hK]
      exact getGroup_setGroup_self _ _ _
    · intro q hq
      by_cases hq2 : startsHashSpace (headLine q) = true
      · exact Or.inr (Or.inl ⟨hq2, hpost q hq hq2⟩)
      · exact Or.inr (Or.inr ⟨by simpa using hq2, hKu⟩)

/-- C2 witness: in a mixed body, the two untagged entries concatenate in
order while the interleaved tagged entries do not disturb them, and the tag
key keeps only the last same-key entry's line. -/
theorem c2_grouping_semantics_witness :
    getGroup (decodeBody (bodyOf ["x", "# t\na", "y", "# t\nb"])) "untagged"
        = some ((((["x", "# t\na", "y", "# t\nb"] : List String).filter
            (fun e => !(startsHashSpace (headLine e)))).map
            (fun e => filterNonBlank (jsLines e))).flatten)
      ∧ getGroup (decodeBody (bodyOf (["x", "# t\na", "y"] ++ "# t\nb" :: [])))
          "t" = some (filterNonBlank ((jsLines "# t\nb").tail)) := by
  constructor
  · exact c2_grouping_semantics.1 ["x", "# t\na", "y", "# t\nb"]
      (by decide) (by decide) (by decide)
  · exact c2_grouping_semantics.2 ["x", "# t\na", "y"] "# t\nb" [] "t"
      (by decide) (by decide) (by decide) (by decide) (by simp)

theorem txt_isSuffix (c : String) :
    (".txt".data).isSuffixOf ((c ++ ".txt").data) = true := by
  rw [List.isSuffixOf_iff_suffix]
  exact ⟨c.data, by rw [String.data_append]⟩

/-- C3 counterexample: a category whose name contains the text extension
before a non-final position is enumerated under a mangled name by the
wildcard loop and so is missing from the wildcard result even though its
resource exists in the scope. -/
theorem c3_counterexample :
    getFile (remember [] "a.txtb" "hello" [] false) false "a.txtb.txt"
        = some "hello\n\n"
      ∧ retrieveAll (remember [] "a.txtb" "hello" [] false) false = [] := by
  refine ⟨?h1, ?h2⟩ <;> decide

/-- C3 (amended): the wildcard retrieval maps each existing category whose
file name round-trips through the wildcard's first-occurrence extension
stripping, and whose decoded view is non-empty, to the flattened list of all
lines across its groups with the group keys discarded; a category with no
resource in the queried scope, in particular one stored only in the other
scope, never appears as a key. -/
theorem c3_wildcard_mapping :
    (∀ (fs : MemFS) (g : Bool) (c body : String),
      getFile fs g (c ++ ".txt") = some body →
      stripTxt (c ++ ".txt") = c →
      decodeBody body ≠ [] →
      getGroup (retrieveAll fs g) c = some (flattenVals (decodeBody body)))
    ∧ (∀ (fs : MemFS) (g : Bool) (c : String),
      getFile fs g (c ++ ".txt") = none →
      getGroup (retrieveAll fs g) c = none) := by
  constructor
  · intro fs g c body hget hstrip hne
    have hcat : retrieveCategory fs c g = decodeBody body := by
      unfold retrieveCategory
      rw [hget]
    unfold retrieveAll
    rw [getGroup_foldl_produce fs g c (listDir fs g) []
      (by rw [hcat]; exact hne)
      ⟨c ++ ".txt", mem_listDir_of_getFile fs g (c ++ ".txt") body hget,
        txt_isSuffix c, hstrip⟩]
    rw [hcat]
  · intro fs g c hget
    have hcat : retrieveCategory fs c g = [] := by
      unfold retrieveCategory
      rw [hget]
    unfold retrieveAll
    rw [getGroup_foldl_no_produce fs g c (listDir fs g) []
      (fun f hf hstrip => Or.inr hcat)]
    rfl

/-- C3 witness: a stored category appears in the wildcard view with its
flattened lines, and is absent from the other scope's wildcard view. -/
theorem c3_wildcard_mapping_witness :
    getGroup (retrieveAll (remember [] "x" "hello" [] false) false) "x"
        = some (flattenVals (decodeBody "hello\n\n"))
      ∧ getGroup (retrieveAll (remember [] "x" "hello" [] false) true) "x"
        = none := by
  constructor
  · exact c3_wildcard_mapping.1 (remember [] "x" "hello" [] false) false "x"
      "hello\n\n" (by decide) (by decide) (by decide)
  · exact c3_wildcard_mapping.2 (remember [] "x" "hello" [] false) true "x"
      (by decide)

/-- C4: remove_specific_memory splits the stored body on the double-newline
delimiter, removes exactly the segments containing the searched content as a
case-sensitive unanchored substring, and rejoins the remainder; on a
well-formed body of clean entry blocks this removes exactly the matching
entry blocks, including blocks matching inside a tag header line. -/
theorem c4_remove_entry_filter :
    (∀ (fs : MemFS) (g : Bool) (category m body : String),
      getFile fs g (category ++ ".txt") = some body →
      getFile (removeSpecificMemory fs category m g) g (category ++ ".txt")
        = some (joinEntriesStr ((jsSplitEntries body).filter
            (fun memory => !(containsSub memory m)))))
    ∧ (∀ (fs : MemFS) (g : Bool) (category m : String) (es : List String),
      m ≠ "" → (∀ e ∈ es, CleanStr e) →
      getFile fs g (category ++ ".txt") = some (bodyOf es) →
      getFile (removeSpecificMemory fs category m g) g (category ++ ".txt")
        = some (bodyOf (es.filter (fun e => !(containsSub e m))))) := by
  constructor
  · intro fs g category m body hget
    unfold removeSpecificMemory
    rw [hget, getFile_setFile_self]
    rfl
  · intro fs g category m es hm hcl hget
    exact removeSpecific_wf fs g category m es hm hcl hget

/-- C4 witness: removing by a substring that occurs in a tag header deletes
that whole entry block and keeps the others. -/
theorem c4_remove_entry_filter_witness :
    getFile (removeSpecificMemory
        (remember (remember [] "c" "hello there" ["tag"] false)
          "c" "keep me" [] false) "c" "tag" false) false "c.txt"
      = some (bodyOf ((["# tag\nhello there", "keep me"] : List String).filter
          (fun e => !(containsSub e "tag")))) :=
  c4_remove_entry_filter.2
    (remember (remember [] "c" "hello there" ["tag"] false) "c" "keep me" [] false)
    false "c" "tag" ["# tag\nhello there", "keep me"]
    (by decide) (by decide) (by decide)

/-- C5 counterexample: when an entry's data ends in a newline, the delimiter
scan misparses the stored body, a segment straddling the entry boundary
matches content that no entry block contains, and the rewrite changes the
body even though no entry contains the searched content or a double
newline. -/
theorem c5_counterexample :
    containsSub "a\n" "\n\n" = false
      ∧ containsSub "e2" "\n\n" = false
      ∧ containsSub "a\n" "\ne2" = false
      ∧ containsSub "e2" "\ne2" = false
      ∧ getFile (remember (remember [] "c" "a\n" [] false) "c" "e2" [] false)
          false "c.txt" = some (bodyOf ["a\n", "e2"])
      ∧ getFile (removeSpecificMemory
            (remember (remember [] "c" "a\n" [] false) "c" "e2" [] false)
            "c" "\ne2" false) false "c.txt"
          = some "a\n\n" := by
  refine ⟨?h1, ?h2, ?h3, ?h4, ?h5, ?h6⟩ <;> decide

/-- C5 (amended): on a body of clean entry blocks, none containing a double
newline, none ending in a newline, and none containing the searched
content, remove_specific_memory leaves the stored body byte-for-byte
unchanged. -/
theorem c5_no_match_roundtrip
    (fs : MemFS) (g : Bool) (category m : String) (es : List String)
    (hm : m ≠ "")
    (hcl : ∀ e ∈ es, CleanStr e)
    (hno : ∀ e ∈ es, containsSub e m = false)
    (hget : getFile fs g (category ++ ".txt") = some (bodyOf es)) :
    getFile (removeSpecificMemory fs category m g) g (category ++ ".txt")
      = some (bodyOf es) := by
  rw [removeSpecific_wf fs g category m es hm hcl hget]
  rw [List.filter_eq_self.mpr (by intro e he; simp [hno e he])]

/-- C5 witness: removing a content that matches no entry leaves a concrete
two-entry body unchanged. -/
theorem c5_no_match_roundtrip_witness :
    getFile (removeSpecificMemory
        (remember (remember [] "c" "keep" [] false) "c" "also" [] false)
        "c" "zzz" false) false "c.txt"
      = some (bodyOf ["keep", "also"]) :=
  c5_no_match_roundtrip
    (remember (remember [] "c" "keep" [] false) "c" "also" [] false)
    false "c" "zzz" ["keep", "also"]
    (by decide) (by decide) (by decide) (by decide)

/-- C6 counterexample: the wildcard value is accepted as a category string
but is not treated as a concrete category: with the wildcard never stored,
retrieve of the wildcard is not the empty mapping and remove of the
wildcard clears other categories instead of being a no-op. -/
theorem c6_counterexample :
    getFile (remember [] "x" "hello" [] false) false ("*" ++ ".txt") = none
      ∧ retrieveMemories (remember [] "x" "hello" [] false) "*" false ≠ []
      ∧ removeMemoryCategory (remember [] "x" "hello" [] false) "*" false
          ≠ remember [] "x" "hello" [] false := by
  refine ⟨?h1, ?h2, ?h3⟩ <;> decide

/-- C6 (amended): for every concrete category name other than the wildcard
that was never stored in a scope, retrieve returns the empty mapping and
remove_memory_category and remove_specific_memory leave the store untouched,
and none of the three handlers flags an error. -/
theorem c6_missing_category_noop
    (fs : MemFS) (c m : String) (g : Bool)
    (hc : c ≠ "*")
    (hget : getFile fs g (c ++ ".txt") = none) :
    retrieveMemories fs c g = []
      ∧ removeMemoryCategory fs c g = fs
      ∧ removeSpecificMemory fs c m g = fs
      ∧ (retrieveTool none fs c g).2.isError = false
      ∧ (removeCategoryTool none fs c g).2.isError = false
      ∧ (removeSpecificTool none fs c m g).2.isError = false := by
  refine ⟨?h1, ?h2, ?h3, rfl, rfl, rfl⟩
  · unfold retrieveMemories retrieveCategory
    rw [if_neg hc, hget]
  · unfold removeMemoryCategory
    rw [if_neg hc]
    exact removeFile_eq_self_of_none fs g (c ++ ".txt") hget
  · unfold removeSpecificMemory
    rw [hget]

/-- C6 witness: the three operations on a never-stored category of a
one-category store are error-free no-ops. -/
theorem c6_missing_category_noop_witness :
    retrieveMemories (remember [] "x" "hello" [] false) "nothere" false = []
      ∧ removeMemoryCategory (remember [] "x" "hello" [] false) "nothere" false
          = remember [] "x" "hello" [] false
      ∧ removeSpecificMemory (remember [] "x" "hello" [] false)
          "nothere" "m" false = remember [] "x" "hello" [] false
      ∧ (retrieveTool none (remember [] "x" "hello" [] false)
          "nothere" false).2.isError = false
      ∧ (removeCategoryTool none (remember [] "x" "hello" [] false)
          "nothere" false).2.isError = false
      ∧ (removeSpecificTool none (remember [] "x" "hello" [] false)
          "nothere" "m" false).2.isError = false :=
  c6_missing_category_noop (remember [] "x" "hello" [] false) "nothere" "m"
    false (by decide) (by decide)

/-- C7: each mutating operation invoked on one scope leaves the other
scope's files byte-identical; retrieval reads only its own scope's files;
and a store into one scope is invisible to any retrieval in the other
scope. -/
theorem c7_scope_isolation (fs : MemFS) (category c' data m : String)
    (tags : List String) (g : Bool) :
    filterScope (remember fs category data tags g) (!g) = filterScope fs (!g)
      ∧ filterScope (removeMemoryCategory fs category g) (!g)
          = filterScope fs (!g)
      ∧ filterScope (removeSpecificMemory fs category m g) (!g)
          = filterScope fs (!g)
      ∧ retrieveMemories (filterScope fs g) category g
          = retrieveMemories fs category g
      ∧ retrieveMemories (remember fs category data tags g) c' (!g)
          = retrieveMemories fs c' (!g) :=
  ⟨filterScope_remember_other fs category data tags g,
    filterScope_removeMemoryCategory_other fs category g,
    filterScope_removeSpecific_other fs category m g,
    retrieveMemories_filterScope fs category g,
    retrieveMemories_remember_other fs c' category data tags g⟩

/-- C8 counterexample: the MemoryManager's registered remember handler does
not convert a storage failure into an error-flagged result; it wraps the
MemoryError and throws again, propagating the exception to its caller. -/
theorem c8_counterexample :
    mmRememberHandler (some "disk full") "personal"
      = Except.error
          "Failed to store memory: Failed to remember memory: disk full" := rfl

/-- C8 (amended): the memory server's four tool handlers catch an injected
storage error and return an error-flagged result carrying the message
instead of propagating, and schema validation rejects an empty required
category before any storage access; the MemoryManager's registered
handlers, by contrast, rethrow a wrapped exception. -/
theorem c8_error_handling (fs : MemFS) (category data m msg : String)
    (tags : List String) (g : Bool) :
    (rememberTool (some msg) fs category data tags g).2
        = { isError := true, message := "Error: " ++ msg }
      ∧ (retrieveTool (some msg) fs category g).2
          = { isError := true, message := "Error: " ++ msg }
      ∧ (removeCategoryTool (some msg) fs category g).2
          = { isError := true, message := "Error: " ++ msg }
      ∧ (removeSpecificTool (some msg) fs category m g).2
          = { isError := true, message := "Error: " ++ msg }
      ∧ (category.length = 0 → ∀ fault,
          rememberToolValidated fault fs category data tags g
            = (fs, { isError := true, message := "Category must not be empty" })) := by
  refine ⟨rfl, rfl, rfl, rfl, ?hval⟩
  intro hlen fault
  unfold rememberToolValidated
  rw [if_neg (by omega)]

/-- C8 witness: a concrete injected storage failure yields error-flagged
results from every handler, and an empty category is rejected by validation
with the store untouched even when a fault is pending. -/
theorem c8_error_handling_witness :
    (rememberTool (some "boom") [] "cat" "data" [] false).2
        = { isError := true, message := "Error: " ++ "boom" }
      ∧ (retrieveTool (some "boom") [] "cat" false).2
          = { isError := true, message := "Error: " ++ "boom" }
      ∧ (removeCategoryTool (some "boom") [] "cat" false).2
          = { isError := true, message := "Error: " ++ "boom" }
      ∧ (removeSpecificTool (some "boom") [] "cat" "m" false).2
          = { isError := true, message := "Error: " ++ "boom" }
      ∧ (("" : String).length = 0 → ∀ fault,
          rememberToolValidated fault [] "" "data" [] false
            = ([], { isError := true, message := "Category must not be empty" })) :=
  c8_error_handling [] "" "data" "m" "boom" [] false

/-- C9: a category whose resource exists but whose body has only blank
lines decodes to the empty grouped view and is omitted entirely from the
wildcard retrieval of its scope. -/
theorem c9_empty_view_omitted
    (fs : MemFS) (g : Bool) (c body : String)
    (hget : getFile fs g (c ++ ".txt") = some body)
    (hblank : ∀ l ∈ jsLines body, isBlank l = true) :
    decodeBody body = [] ∧ getGroup (retrieveAll fs g) c = none := by
  refine ⟨decodeBody_blank body hblank, ?h2⟩
  have hcat : retrieveCategory fs c g = [] := by
    unfold retrieveCategory
    rw [hget]
    exact decodeBody_blank body hblank
  unfold retrieveAll
  rw [getGroup_foldl_no_produce fs g c (listDir fs g) []
    (fun f hf hstrip => Or.inr hcat)]
  rfl

/-- C9 witness: a category stored with whitespace-only data exists as a
resource yet is omitted from the wildcard view. -/
theorem c9_empty_view_omitted_witness :
    decodeBody " \n\n" = []
      ∧ getGroup (retrieveAll (remember [] "c" " " [] false) false) "c"
          = none :=
  c9_empty_view_omitted (remember [] "c" " " [] false) false "c" " \n\n"
    (by decide) (by decide)

/-- C10 counterexample: storing data beginning with the hash-space marker
twice does not list anything under the untagged key: both copies are parsed
as tagged entries and the second overwrites the first. -/
theorem c10_counterexample :
    getGroup (retrieveCategory
        (remember (remember [] "c" "# x" [] false) "c" "# x" [] false)
        "c" false) "untagged" = none
      ∧ getGroup (retrieveCategory
          (remember (remember [] "c" "# x" [] false) "c" "# x" [] false)
          "c" false) "x" = some [] := by
  refine ⟨?h1, ?h2⟩ <;> decide

/-- C10 (amended): over a well-formed prior body, storing the same untagged
data twice with data whose lines are non-blank and which does not begin
with the hash-space marker appends two separate entries, so the untagged
group of the subsequent retrieval ends with the data's lines twice: store
is append, not idempotent. -/
theorem c10_double_store
    (fs : MemFS) (es : List String) (category data : String) (g : Bool)
    (hprior : (getFile fs g (category ++ ".txt")).getD "" = bodyOf es)
    (hcl : ∀ e ∈ es, CleanStr e)
    (hdata : AllLinesNonBlank data)
    (hhash : startsHashSpace data = false) :
    ∃ pre, getGroup (retrieveCategory
        (remember (remember fs category data [] g) category data [] g)
        category g) "untagged"
      = some (pre ++ jsLines data ++ jsLines data) :=
  double_store_untagged fs es category data g hprior hcl hdata hhash

/-- C10 witness: two identical untagged stores into an empty store list the
data's line twice under the untagged key. -/
theorem c10_double_store_witness :
    ∃ pre, getGroup (retrieveCategory
        (remember (remember [] "c" "hi" [] false) "c" "hi" [] false)
        "c" false) "untagged"
      = some (pre ++ jsLines "hi" ++ jsLines "hi") :=
  c10_double_store [] [] "c" "hi" false (by decide) (by simp) (by decide)
    (by decide)

end GooseMemory
